import Mathlib

/-!
Shallow embedding of the liveness-analysis / live-range-construction core
(`ion/liveranges.rs`) of the regalloc2 backtracking register allocator,
together with theorems settling the specification claims.

Conventions of the embedding:
* A `ProgPoint` is its 32-bit encoding `inst <<< 1 ||| phase` modelled as `ℕ`
  (phase 0 = Before, 1 = After), as the design notes prescribe.
* Machine integers are modelled as `ℕ`; wrap-around is written explicitly
  where it matters.
* Rust panics (failed `assert!`, `unwrap()` of `None`, out-of-bounds index)
  are modelled by returning `Option.none`.
* `f32` values arising in spill weights are always non-negative integers that
  fit far below the overflow threshold, so they are modelled as `ℕ` together
  with an explicit round-to-nearest-even at 24 significant bits for addition
  (`f32add`); multiplication by 4 is exact in `f32` on this domain.
-/

namespace RA2

/-- ProgPoint: encoded as `inst * 2 + phase`, phase 0 = Before, 1 = After. -/
def ProgPoint.before (inst : ℕ) : ℕ := 2 * inst

/-- ProgPoint `After` point of an instruction. -/
def ProgPoint.after (inst : ℕ) : ℕ := 2 * inst + 1

/-- Step to the next program point (`bits + 1`). -/
def ProgPoint.next (p : ℕ) : ℕ := p + 1

/-- Step to the previous program point (`bits - 1`). -/
def ProgPoint.prev (p : ℕ) : ℕ := p - 1

/-- The instruction of a program point (`bits >> 1`). -/
def ProgPoint.inst (p : ℕ) : ℕ := p / 2

/-- The phase of a program point: `0` = Before, `1` = After. -/
def ProgPoint.phase (p : ℕ) : ℕ := p % 2

/-- CodeRange: half-open interval of program points.
(`from` is a Lean keyword, hence the guillemets.) -/
structure CodeRange where
  «from» : ℕ
  «to» : ℕ
deriving DecidableEq, Repr

/-- `CodeRange::contains_point`. -/
def CodeRange.containsPoint (r : CodeRange) (p : ℕ) : Bool :=
  decide (r.«from» ≤ p) && decide (p < r.«to»)

/-- Register class of a vreg (`RegClass`). -/
inductive RegClass where
  | Int
  | Float
deriving DecidableEq, Repr

/-- Virtual register: index plus class. -/
structure VReg where
  vreg : ℕ
  cls : RegClass
deriving DecidableEq, Repr

instance : Inhabited VReg := ⟨⟨0, RegClass.Int⟩⟩

/-- Operand constraints (`OperandConstraint`). -/
inductive OperandConstraint where
  | Any
  | Reg
  | Stack
  | FixedReg (preg : ℕ)
  | Reuse (i : ℕ)
deriving DecidableEq, Repr

/-- Operand kinds (`OperandKind`). -/
inductive OperandKind where
  | Def
  | Mod
  | Use
deriving DecidableEq, Repr

/-- Operand positions (`OperandPos`). -/
inductive OperandPos where
  | Early
  | Late
deriving DecidableEq, Repr

/-- An operand: vreg, constraint, kind and position. -/
structure Operand where
  vreg : VReg
  constraint : OperandConstraint
  kind : OperandKind
  pos : OperandPos
deriving DecidableEq, Repr

instance : Inhabited Operand := ⟨⟨default, OperandConstraint.Any, OperandKind.Use, OperandPos.Early⟩⟩

/-- `SLOT_NONE`: sentinel slot for virtual uses (`u8::MAX`). -/
def SLOT_NONE : ℕ := 255

/-- A `Use` record: operand, program point, operand slot, packed weight. -/
structure Use where
  operand : Operand
  pos : ℕ
  slot : ℕ
  weight : ℕ
deriving DecidableEq, Repr

/-- `Use::new(operand, pos, slot)`: weight starts at 0 and is stamped on
insertion. -/
def Use.new (operand : Operand) (pos slot : ℕ) : Use :=
  ⟨operand, pos, slot, 0⟩

/-- Modelled from the spec: the error enum of the allocator's public API
(`RegAllocError`, defined in `lib.rs`, which is not part of the provided
sources). `EntryLivein` is the only variant this phase produces; the other
variants stand in for the remaining diagnostics of the enum. -/
inductive RegAllocError where
  | CritEdge (a b : ℕ)
  | SSA (v : ℕ) (i : ℕ)
  | BB (b : ℕ)
  | Branch (i : ℕ)
  | EntryLivein
  | TooManyLiveRegs
deriving DecidableEq, Repr

/-- Modelled from the spec: insert-move priorities referenced by the pinned
move cases (`InsertMovePrio`, defined outside the provided sources). -/
inductive InsertMovePrio where
  | Regular
  | BlockParam
  | MultiFixedReg
  | PostRegular
deriving DecidableEq, Repr

/-!
### The f32 model for spill weights

Every `f32` value occurring in spill-weight computations is a non-negative
integer far below the f32 overflow threshold, so we represent values by `ℕ`.
An f32 has 24 significant bits; addition rounds the exact sum to the nearest
representable value with ties to even.  Multiplication of a representable
value by `4.0` only raises the exponent and is exact.
-/

/-- Number of bits of `n` (for `n < 2^32`). -/
def bitlen (n : ℕ) : ℕ :=
  (List.range 32).foldl (fun acc j => if 2 ^ j ≤ n then j + 1 else acc) 0

/-- The distance between consecutive representable f32 values near the
integer `n` (the unit in the last place); `1` below `2^24`. -/
def ulpOf (n : ℕ) : ℕ :=
  (List.range 32).foldl (fun acc j => if 2 ^ (24 + j) ≤ n then 2 ^ (j + 1) else acc) 1

/-- Round `n` to the nearest multiple of `u` with ties to the even multiple. -/
def roundTiesEven (u n : ℕ) : ℕ :=
  let q := n / u
  let r := n % u
  if 2 * r < u then q * u
  else if u < 2 * r then (q + 1) * u
  else if q % 2 = 0 then q * u else (q + 1) * u

/-- f32 addition of two exactly-representable non-negative integers:
round the exact sum to nearest-even at 24 significant bits. -/
def f32add (a b : ℕ) : ℕ := roundTiesEven (ulpOf (a + b)) (a + b)

/-- The IEEE-754 single-precision bit pattern of the non-negative integer `n`
(exact when `n` is representable; `n = 0` maps to `+0.0`). -/
def f32bitsOfNat (n : ℕ) : ℕ :=
  if n = 0 then 0
  else
    let k := bitlen n - 1
    let mant := if k ≤ 23 then n <<< (23 - k) else n >>> (k - 23)
    ((127 + k) <<< 23) + mant % 2 ^ 23

/-- The non-negative integer value of an f32 bit pattern (exact on the
patterns produced in this development, which all denote integers). -/
def natOfF32bits (bits : ℕ) : ℕ :=
  if bits = 0 then 0
  else
    let e := bits / 2 ^ 23
    let m := 2 ^ 23 + bits % 2 ^ 23
    if 150 ≤ e then m * 2 ^ (e - 150) else m / 2 ^ (150 - e)

/-- `spill_weight_from_constraint`: `hot_bonus` is the fold
`(0..min(10, depth)).fold(1000.0, |a, _| a * 4.0)` (each step is an exact
f32 multiplication by 4), and the two `+` are f32 additions. -/
def spill_weight_from_constraint (constraint : OperandConstraint) (loop_depth : ℕ)
    (is_def : Bool) : ℕ :=
  let ld := min 10 loop_depth
  let hot_bonus := (List.range ld).foldl (fun a _ => a * 4) 1000
  let def_bonus := if is_def then 2000 else 0
  let constraint_bonus :=
    match constraint with
    | OperandConstraint.Any => 1000
    | OperandConstraint.Reg => 2000
    | OperandConstraint.FixedReg _ => 2000
    | _ => 0
  f32add (f32add hot_bonus def_bonus) constraint_bonus

/-- `SpillWeight::to_bits` on the 32-bit pattern of the weight:
`(self.0.to_bits() >> 15) as u16`. -/
def SpillWeight.to_bits (bits : ℕ) : ℕ := (bits >>> 15) % 2 ^ 16

/-- `SpillWeight::from_bits`: `f32::from_bits((bits as u16 as u32) << 15)`,
returned as the 32-bit pattern of the resulting weight. -/
def SpillWeight.from_bits (b : ℕ) : ℕ := (b <<< 15) % 2 ^ 32

/-- Packed weight (u16) of an integer weight value. -/
def packWeight (w : ℕ) : ℕ := SpillWeight.to_bits (f32bitsOfNat w)

/-- Integer weight value of a packed (u16) weight. -/
def unpackWeight (b : ℕ) : ℕ := natOfF32bits (SpillWeight.from_bits b)

/-!
### Live sets

`IndexSet` bitsets are modelled as strictly ascending lists of vreg indices;
iteration order of a bitset is ascending, matching the list order.
-/

/-- Insert into a sorted list, keeping it sorted and duplicate-free
(`IndexSet::set(v, true)`). -/
def nsInsert : List ℕ → ℕ → List ℕ
  | [], v => [v]
  | h :: t, v =>
    if v < h then v :: h :: t
    else if v = h then h :: t
    else h :: nsInsert t v

/-- Remove from a set (`IndexSet::set(v, false)`). -/
def nsRemove (l : List ℕ) (v : ℕ) : List ℕ := l.filter (fun x => x ≠ v)

/-- `IndexSet::get`. -/
def nsMem (l : List ℕ) (v : ℕ) : Bool := l.contains v

/-- Set a bit to a given value. -/
def nsSet (l : List ℕ) (v : ℕ) (b : Bool) : List ℕ :=
  if b then nsInsert l v else nsRemove l v

/-- Union of two sets (`IndexSet::union_with`, result part). -/
def nsUnion (a b : List ℕ) : List ℕ := b.foldl nsInsert a

/-!
### The entity store
-/

/-- A live-range record (`LiveRange`).  The packed
`uses_spill_weight_and_flags` word is split into the `StartsAtDef` flag and
the 16-bit packed weight sum. -/
structure LiveRange where
  range : CodeRange
  vreg : Option ℕ
  bundle : Option ℕ
  startsAtDef : Bool
  usesSpillWeightBits : ℕ
  uses : List Use
  mergedInto : Option ℕ
deriving DecidableEq, Repr

instance : Inhabited LiveRange :=
  ⟨⟨⟨0, 0⟩, none, none, false, 0, [], none⟩⟩

/-- An entry of a vreg's range list (`LiveRangeListEntry`): the cached copy
of the range plus the index of the authoritative record. -/
structure LiveRangeListEntry where
  range : CodeRange
  index : ℕ
deriving DecidableEq, Repr

/-- Per-vreg data (`VRegData`). -/
structure VRegData where
  ranges : List LiveRangeListEntry
  blockparam : Option ℕ
  is_ref : Bool
  is_pinned : Bool
deriving DecidableEq, Repr

instance : Inhabited VRegData := ⟨⟨[], none, false, false⟩⟩

/-- Per-preg data (`PRegData`).  The `LiveRangeSet` b-tree of reserved
intervals (defined outside the provided sources) is modelled from the spec
as the list of reserved `CodeRange` keys, in insertion order. -/
structure PRegData where
  reg : ℕ
  allocations : List CodeRange
deriving DecidableEq, Repr

instance : Inhabited PRegData := ⟨⟨0, []⟩⟩

/-- An inserted edit move (`Env::insert_move`, defined outside the provided
sources): modelled from the spec as the record of its arguments
`(pos, prio, from_alloc, to_alloc, to_vreg)`, with `Allocation::reg(p)`
represented by the preg index `p`. -/
structure InsertedMove where
  pos : ℕ
  prio : InsertMovePrio
  fromAlloc : ℕ
  toAlloc : ℕ
  toVReg : Option VReg
deriving DecidableEq, Repr

/-- The mutable state of the liveness phase (the fields of `Env` that
`compute_liveness` reads or writes; statistics counters are omitted). -/
structure St where
  pregs : List PRegData
  vregs : List VRegData
  vreg_regs : List VReg
  ranges : List LiveRange
  liveins : List (List ℕ)
  liveouts : List (List ℕ)
  blockparam_ins : List (ℕ × ℕ × ℕ)
  blockparam_outs : List (ℕ × ℕ × ℕ × ℕ)
  prog_move_srcs : List (ℕ × ℕ)
  prog_move_dsts : List (ℕ × ℕ)
  prog_move_merges : List (ℕ × ℕ)
  safepoints : List ℕ
  safepoints_per_vreg : List (ℕ × List ℕ)
  multi_fixed_reg_fixups : List (ℕ × ℕ × ℕ × ℕ)
  clobbers : List ℕ
  inserted_moves : List InsertedMove
deriving DecidableEq, Repr

/-- Replace the element at an index (no-op when out of bounds). -/
def modifyIdx (f : α → α) : ℕ → List α → List α
  | _, [] => []
  | 0, a :: as => f a :: as
  | n + 1, a :: as => a :: modifyIdx f n as

/-- The vreg data at an index. -/
def vregAt (st : St) (v : ℕ) : VRegData := st.vregs.getD v default

/-- The live-range record at an index. -/
def rangeAt (st : St) (i : ℕ) : LiveRange := st.ranges.getD i default

/-- The range list of a vreg. -/
def vRanges (st : St) (v : ℕ) : List LiveRangeListEntry := (vregAt st v).ranges

/-- `from` of the authoritative record of the most recently added range of a
vreg (the assertion and coalescing test of `add_liverange_to_vreg` read the
record, not the cached entry). -/
def lastRangeFrom (st : St) (v : ℕ) : ℕ :=
  match (vRanges st v).getLast? with
  | some e => (rangeAt st e.index).range.«from»
  | none => 0

/-- `Env::create_liverange`: push a fresh record, return its index. -/
def create_liverange (st : St) (range : CodeRange) : St × ℕ :=
  ({ st with
      ranges := st.ranges ++
        [{ range := range, vreg := none, bundle := none, startsAtDef := false,
           usesSpillWeightBits := 0, uses := [], mergedInto := none }] },
   st.ranges.length)

/-- `Env::add_liverange_to_vreg`: reverse-contiguity fast path.  The entry
assertion (`ranges` empty or `range.to ≤` front record's `from`) panics on
violation, modelled by `none`. -/
def add_liverange_to_vreg (st : St) (vreg : ℕ) (range : CodeRange) :
    Option (St × ℕ) :=
  if vRanges st vreg = [] ∨ range.«to» ≤ lastRangeFrom st vreg then
    if vRanges st vreg = [] ∨ range.«to» < lastRangeFrom st vreg then
      -- not contiguous with the previously added range: create a new one
      let p := create_liverange st range
      let st := p.1
      let lr := p.2
      some
        ({ st with
            ranges := modifyIdx (fun r => { r with vreg := some vreg }) lr st.ranges,
            vregs := modifyIdx
              (fun d => { d with ranges := d.ranges ++ [⟨range, lr⟩] }) vreg st.vregs },
         lr)
    else
      -- contiguous: extend the front record (the inner assert
      -- `range.to == front.from` holds by the two tests above)
      match (vRanges st vreg).getLast? with
      | some e =>
          some
            ({ st with
                ranges := modifyIdx
                  (fun r => { r with range := { r.range with «from» := range.«from» } })
                  e.index st.ranges },
             e.index)
      | none => none
  else none

/-- `Env::insert_use_into_liverange`: stamp the use's weight from its
constraint, the loop depth of its block and its def-ness, append it to the
record's use list and accumulate the packed weight sum (an f32 addition of
the unpacked sum and the new weight, re-packed). -/
def insert_use_into_liverange (insnBlock : ℕ → ℕ) (loopDepth : ℕ → ℕ)
    (st : St) (into : ℕ) (u : Use) : St :=
  let constraint := u.operand.constraint
  let block := insnBlock (ProgPoint.inst u.pos)
  let weight := spill_weight_from_constraint constraint (loopDepth block)
      (u.operand.kind ≠ OperandKind.Use)
  let u := { u with weight := packWeight weight }
  { st with
      ranges := modifyIdx
        (fun r =>
          { r with
              uses := r.uses ++ [u],
              usesSpillWeightBits :=
                packWeight (f32add (unpackWeight r.usesSpillWeightBits) weight) })
        into st.ranges }

/-- `Env::add_liverange_to_preg`: reserve a `CodeRange` key on a preg's
allocation map. -/
def add_liverange_to_preg (st : St) (range : CodeRange) (reg : ℕ) : St :=
  { st with
      pregs := modifyIdx
        (fun d => { d with allocations := d.allocations ++ [range] }) reg st.pregs }

/-!
### The driver interface

The `Function` capability set together with the precomputed `cfginfo`
(postorder, instruction-to-block map, block entry/exit points, approximate
loop depth).
-/

/-- The driver interface consumed by the phase. -/
structure Func where
  num_insts : ℕ
  num_blocks : ℕ
  num_vregs : ℕ
  entry_block : ℕ
  block_insns : ℕ → List ℕ
  block_params : ℕ → List VReg
  block_preds : ℕ → List ℕ
  block_succs : ℕ → List ℕ
  inst_operands : ℕ → List Operand
  inst_clobbers : ℕ → List ℕ
  is_move : ℕ → Option (Operand × Operand)
  is_branch : ℕ → Bool
  branch_blockparam_arg_offset : ℕ → ℕ → ℕ
  reftype_vregs : List VReg
  pinned_vregs : List VReg
  is_pinned_vreg : VReg → Option ℕ
  requires_refs_on_stack : ℕ → Bool
  postorder : List ℕ
  insn_block : ℕ → ℕ
  block_entry : ℕ → ℕ
  block_exit : ℕ → ℕ
  approx_loop_depth : ℕ → ℕ

/-- `PReg::MAX_INDEX`: the size of the dense preg index space (defined
outside the provided sources; modelled from the spec as a constant). -/
def PREG_MAX_INDEX : ℕ := 128

/-- `Env::create_pregs_and_vregs`, restricted to the fields this phase
uses: the preg arena, the vreg arena with `is_ref` / `is_pinned` populated
from the driver's lists, and empty side tables. -/
def initialSt (f : Func) : St :=
  let vregs0 := List.replicate f.num_vregs
    ({ ranges := [], blockparam := none, is_ref := false, is_pinned := false } : VRegData)
  let vregs1 := f.reftype_vregs.foldl
    (fun vs v => modifyIdx (fun d => { d with is_ref := true }) v.vreg vs) vregs0
  let vregs2 := f.pinned_vregs.foldl
    (fun vs v => modifyIdx (fun d => { d with is_pinned := true }) v.vreg vs) vregs1
  { pregs := (List.range PREG_MAX_INDEX).map (fun i => { reg := i, allocations := [] }),
    vregs := vregs2,
    vreg_regs := (List.range f.num_vregs).map (fun i => ⟨i, RegClass.Int⟩),
    ranges := [],
    liveins := [],
    liveouts := [],
    blockparam_ins := [],
    blockparam_outs := [],
    prog_move_srcs := [],
    prog_move_dsts := [],
    prog_move_merges := [],
    safepoints := [],
    safepoints_per_vreg := [],
    multi_fixed_reg_fixups := [],
    clobbers := [],
    inserted_moves := [] }

/-- Push an inserted edit move (`Env::insert_move`). -/
def pushMove (st : St) (pos : ℕ) (prio : InsertMovePrio) (a b : ℕ)
    (v : Option VReg) : St :=
  { st with inserted_moves := st.inserted_moves ++ [⟨pos, prio, a, b, v⟩] }

/-- Overwrite the `from` bound of a live-range record. -/
def setRangeFrom (st : St) (idx p : ℕ) : St :=
  { st with
      ranges := modifyIdx
        (fun r => { r with range := { r.range with «from» := p } }) idx st.ranges }

/-- Set the `StartsAtDef` flag of a live-range record. -/
def setStartsAtDef (st : St) (idx : ℕ) : St :=
  { st with ranges := modifyIdx (fun r => { r with startsAtDef := true }) idx st.ranges }

/-!
### The dataflow solver

Worklist computation of per-block live-in / live-out sets
(`compute_liveness`, first half).
-/

/-- The per-move update of the backward per-instruction dataflow step:
`live.set(dst, false); live.set(src, true)` (in this order). -/
def dataflowMoveUpdate (live : List ℕ) (src dst : ℕ) : List ℕ :=
  nsSet (nsSet live dst false) src true

/-- The backward dataflow transfer of one instruction: the move update (when
the instruction is a move), then, for `Late` then `Early` operands:
Use/Mod gen, Def kill. -/
def dataflowInstStep (f : Func) (inst : ℕ) (live : List ℕ) : List ℕ :=
  let live :=
    match f.is_move inst with
    | some (src, dst) => dataflowMoveUpdate live src.vreg.vreg dst.vreg.vreg
    | none => live
  [OperandPos.Late, OperandPos.Early].foldl
    (fun live pos =>
      (f.inst_operands inst).foldl
        (fun live op =>
          if op.pos = pos then
            match op.kind with
            | OperandKind.Use => nsSet live op.vreg.vreg true
            | OperandKind.Mod => nsSet live op.vreg.vreg true
            | OperandKind.Def => nsSet live op.vreg.vreg false
          else live)
        live)
    live

/-- The backward transfer of a whole block: instructions in reverse, then
removal of the block's own blockparams. -/
def dataflowBlockTransfer (f : Func) (block : ℕ) (liveout : List ℕ) : List ℕ :=
  let live := (f.block_insns block).reverse.foldl
    (fun live inst => dataflowInstStep f inst live) liveout
  (f.block_params block).foldl (fun live bp => nsSet live bp.vreg false) live

/-- State of the worklist solver. -/
structure SolveSt where
  liveins : List (List ℕ)
  liveouts : List (List ℕ)
  queue : List ℕ
  qset : List ℕ
deriving DecidableEq, Repr

/-- One worklist iteration body: transfer the block, union the result into
each predecessor's live-out (re-queueing predecessors whose set grew), and
record the block's live-in. -/
def solveStep (f : Func) (s : SolveSt) (block : ℕ) : SolveSt :=
  let live := dataflowBlockTransfer f block (s.liveouts.getD block [])
  let s := (f.block_preds block).foldl
    (fun (s : SolveSt) pred =>
      let old := s.liveouts.getD pred []
      let u := nsUnion old live
      if u ≠ old then
        let s := { s with liveouts := modifyIdx (fun _ => u) pred s.liveouts }
        if nsMem s.qset pred then s
        else { s with qset := nsInsert s.qset pred, queue := s.queue ++ [pred] }
      else s)
    s
  { s with liveins := modifyIdx (fun _ => live) block s.liveins }

/-- The worklist loop, with explicit fuel (the Rust loop runs until the
queue empties; exhausted fuel is modelled as `none`). -/
def solveLoop (f : Func) : ℕ → SolveSt → Option SolveSt
  | 0, s => if s.queue = [] then some s else none
  | fuel + 1, s =>
    match s.queue with
    | [] => some s
    | block :: rest =>
      let s := { s with queue := rest, qset := nsRemove s.qset block }
      solveLoop f fuel (solveStep f s block)

/-- The dataflow solver: empty initial live sets, queue seeded with the CFG
postorder, then the worklist loop.  Returns `(liveins, liveouts)`. -/
def solveFix (f : Func) (fuel : ℕ) : Option (List (List ℕ) × List (List ℕ)) :=
  let s0 : SolveSt :=
    { liveins := List.replicate f.num_blocks [],
      liveouts := List.replicate f.num_blocks [],
      queue := f.postorder,
      qset := f.postorder.foldl nsInsert [] }
  (solveLoop f fuel s0).map (fun s => (s.liveins, s.liveouts))

/-!
### Range construction (per block, reverse order)
-/

/-- Block-local construction state: the store, the running live set, and the
per-vreg current live range (`vreg_ranges`; `none` = invalid). -/
structure BSt where
  st : St
  live : List ℕ
  vranges : List (Option ℕ)

/-- First operand with a `Reuse(i)` constraint, if any. -/
def findReuse : List Operand → Option ℕ
  | [] => none
  | op :: rest =>
    match op.constraint with
    | OperandConstraint.Reuse i => some i
    | _ => findReuse rest

/-- The effective ProgPoint of a non-move operand (the `match` on
`(kind, pos)` of the source, in source arm order: the `(Use, Late)` arm
precedes the branch arm, so only `(Use, Early)` operands reach the
branch test). -/
def operandEffectivePos (f : Func) (block inst : ℕ) (reused_input : Option ℕ)
    (i : ℕ) (op : Operand) : ℕ :=
  match op.kind, op.pos with
  | OperandKind.Mod, _ => ProgPoint.before inst
  | OperandKind.Def, OperandPos.Early => ProgPoint.before inst
  | OperandKind.Def, OperandPos.Late => ProgPoint.after inst
  | OperandKind.Use, OperandPos.Late => ProgPoint.after inst
  | OperandKind.Use, OperandPos.Early =>
    if f.is_branch inst then f.block_exit block
    else
      match reused_input with
      | some r => if r = i then ProgPoint.before inst else ProgPoint.after inst
      | none => ProgPoint.before inst

/-- Process one non-move operand at the current phase pass (`cur_pos`:
`1` = After, `0` = Before); operands whose effective point is in the other
phase are skipped in this pass. -/
def processOperand (f : Func) (block inst : ℕ) (reused : Option ℕ) (curPos : ℕ)
    (b : BSt) (i : ℕ) (operand : Operand) : Option BSt :=
  let pos := operandEffectivePos f block inst reused i operand
  if ProgPoint.phase pos ≠ curPos then some b
  else
    match operand.kind with
    | OperandKind.Use => do
      let v := operand.vreg.vreg
      let (st, lr, vranges) ←
        if nsMem b.live v then do
          let lr ← b.vranges.getD v none
          pure (b.st, lr, b.vranges)
        else do
          let range : CodeRange := ⟨f.block_entry block, ProgPoint.next pos⟩
          let (st, lr) ← add_liverange_to_vreg b.st v range
          pure (st, lr, modifyIdx (fun _ => some lr) v b.vranges)
      let st := insert_use_into_liverange f.insn_block f.approx_loop_depth st lr
        (Use.new operand pos i)
      pure (⟨st, nsSet b.live v true, vranges⟩ : BSt)
    | _ => do
      -- Def or Mod
      let v := operand.vreg.vreg
      let st := { b.st with vreg_regs := modifyIdx (fun _ => operand.vreg) v b.st.vreg_regs }
      let (st, lr, live, vranges) ←
        if nsMem b.live v then do
          let lr ← b.vranges.getD v none
          pure (st, lr, b.live, b.vranges)
        else do
          let dfrom :=
            match operand.kind with
            | OperandKind.Def => pos
            | _ => f.block_entry block
          let dto :=
            match operand.kind with
            | OperandKind.Def => ProgPoint.next pos
            | _ => ProgPoint.next (ProgPoint.next pos)
          let (st, lr) ← add_liverange_to_vreg st v ⟨dfrom, dto⟩
          pure (st, lr, nsSet b.live v true, modifyIdx (fun _ => some lr) v b.vranges)
      let st := insert_use_into_liverange f.insn_block f.approx_loop_depth st lr
        (Use.new operand pos i)
      if operand.kind = OperandKind.Def then
        let st :=
          if (rangeAt st lr).range.«from» = f.block_entry block then setRangeFrom st lr pos
          else st
        let st := setStartsAtDef st lr
        pure (⟨st, nsSet live v false, modifyIdx (fun _ => none) v vranges⟩ : BSt)
      else pure (⟨st, live, vranges⟩ : BSt)

/-- The two phase passes (`After` then `Before`) over an instruction's
operands. -/
def processInstOps (f : Func) (block inst : ℕ) (reused : Option ℕ) (b : BSt) :
    Option BSt :=
  [1, 0].foldlM
    (fun b curPos =>
      ((f.inst_operands inst).enum).foldlM
        (fun b pr => processOperand f block inst reused curPos b pr.1 pr.2) b)
    b

/-- Move with both endpoints pinned: fix up live ranges as a use of `src`
and a def of `dst` at `After(inst)`, then emit the actual preg-to-preg move
at `Before(inst)`. -/
def processMoveBothPinned (f : Func) (block inst : ℕ) (src dst : Operand)
    (b : BSt) : Option BSt := do
  let b ←
    if ¬ nsMem b.live src.vreg.vreg then do
      let (st, lr) ← add_liverange_to_vreg b.st src.vreg.vreg
        ⟨f.block_entry block, ProgPoint.after inst⟩
      pure (⟨st, nsSet b.live src.vreg.vreg true,
             modifyIdx (fun _ => some lr) src.vreg.vreg b.vranges⟩ : BSt)
    else pure b
  let b ←
    if nsMem b.live dst.vreg.vreg then do
      let lr ← b.vranges.getD dst.vreg.vreg none
      pure (⟨setRangeFrom b.st lr (ProgPoint.after inst),
             nsSet b.live dst.vreg.vreg false, b.vranges⟩ : BSt)
    else do
      let (st, _) ← add_liverange_to_vreg b.st dst.vreg.vreg
        ⟨ProgPoint.after inst, ProgPoint.before (inst + 1)⟩
      pure (⟨st, b.live, b.vranges⟩ : BSt)
  let src_preg ←
    match src.constraint with
    | OperandConstraint.FixedReg r => some r
    | _ => none
  let dst_preg ←
    match dst.constraint with
    | OperandConstraint.FixedReg r => some r
    | _ => none
  pure { b with
          st := pushMove b.st (ProgPoint.before inst) InsertMovePrio.MultiFixedReg
            src_preg dst_preg (some dst.vreg) }

/-- Move with exactly one pinned endpoint: convert the non-pinned side into
a ghost use/def with a `FixedReg` constraint at `After(inst)`, and maintain
the pinned side's live range around that point, emitting checker no-op
moves. -/
def processMoveOnePinned (f : Func) (block inst : ℕ) (src dst : Operand)
    (b : BSt) : Option BSt := do
  let srcPinned := (vregAt b.st src.vreg.vreg).is_pinned
  let (preg, vr, pinned_vreg, kind, opos, progpoint) ←
    if srcPinned then do
      let preg ← f.is_pinned_vreg src.vreg
      pure (preg, dst.vreg, src.vreg, OperandKind.Def, OperandPos.Late,
        ProgPoint.after inst)
    else do
      let preg ← f.is_pinned_vreg dst.vreg
      pure (preg, src.vreg, dst.vreg, OperandKind.Use, OperandPos.Early,
        ProgPoint.after inst)
  let operand : Operand := ⟨vr, OperandConstraint.FixedReg preg, kind, opos⟩
  let (st, lr) ←
    if ¬ nsMem b.live vr.vreg then do
      let dfrom := if kind = OperandKind.Def then progpoint else f.block_entry block
      add_liverange_to_vreg b.st vr.vreg ⟨dfrom, ProgPoint.next progpoint⟩
    else do
      let lr ← b.vranges.getD vr.vreg none
      pure (b.st, lr)
  let st := insert_use_into_liverange f.insn_block f.approx_loop_depth st lr
    (Use.new operand progpoint SLOT_NONE)
  let (st, live, vranges) :=
    if kind = OperandKind.Def then
      let live := nsSet b.live vr.vreg false
      let st :=
        if (rangeAt st lr).range.«from» = f.block_entry block then
          setRangeFrom st lr progpoint
        else st
      (setStartsAtDef st lr, live, b.vranges)
    else
      (st, nsSet b.live vr.vreg true, modifyIdx (fun _ => some lr) vr.vreg b.vranges)
  if kind = OperandKind.Def then
    -- the pinned vreg is the move's source: poke a hole in its range
    if nsMem live pinned_vreg.vreg then do
      let pinned_lr ← vranges.getD pinned_vreg.vreg none
      let orig_start := (rangeAt st pinned_lr).range.«from»
      let st := setRangeFrom st pinned_lr (ProgPoint.next progpoint)
      let (st, new_lr) ← add_liverange_to_vreg st pinned_vreg.vreg
        ⟨orig_start, ProgPoint.prev progpoint⟩
      let vranges := modifyIdx (fun _ => some new_lr) pinned_vreg.vreg vranges
      let st := pushMove st (ProgPoint.after inst) InsertMovePrio.Regular preg preg
        (some dst.vreg)
      let st := pushMove st (ProgPoint.before (inst + 1)) InsertMovePrio.MultiFixedReg
        preg preg (some src.vreg)
      pure (⟨st, live, vranges⟩ : BSt)
    else do
      let (st, live, vranges) ←
        if ProgPoint.inst (f.block_entry block) < inst then do
          let (st, new_lr) ← add_liverange_to_vreg st pinned_vreg.vreg
            ⟨f.block_entry block, ProgPoint.before inst⟩
          pure (st, nsSet live pinned_vreg.vreg true,
            modifyIdx (fun _ => some new_lr) pinned_vreg.vreg vranges)
        else pure (st, live, vranges)
      let st := pushMove st (ProgPoint.after inst) InsertMovePrio.BlockParam preg preg
        (some dst.vreg)
      pure (⟨st, live, vranges⟩ : BSt)
  else
    -- the pinned vreg is the move's destination: truncate its range
    if nsMem live pinned_vreg.vreg then do
      let pinned_lr ← vranges.getD pinned_vreg.vreg none
      let st := setRangeFrom st pinned_lr (ProgPoint.next progpoint)
      let live := nsSet live pinned_vreg.vreg false
      let st := pushMove st (ProgPoint.before (inst + 1)) InsertMovePrio.PostRegular
        preg preg (some dst.vreg)
      pure (⟨st, live, vranges⟩ : BSt)
    else pure (⟨st, live, vranges⟩ : BSt)

/-- Move with no pinned endpoint: rewrite the operands (`src` as Use/Late,
`dst` as Def/Early, `Reg` demoted to `Any`), treat the move as crossing
`Before(inst+1)`, and record the program-move descriptors. -/
def processMoveNeitherPinned (f : Func) (block inst : ℕ) (src0 dst0 : Operand)
    (b : BSt) : Option BSt := do
  let src_constraint :=
    match src0.constraint with
    | OperandConstraint.Reg => OperandConstraint.Any
    | x => x
  let dst_constraint :=
    match dst0.constraint with
    | OperandConstraint.Reg => OperandConstraint.Any
    | x => x
  let src : Operand := ⟨src0.vreg, src_constraint, OperandKind.Use, OperandPos.Late⟩
  let dst : Operand := ⟨dst0.vreg, dst_constraint, OperandKind.Def, OperandPos.Early⟩
  -- the def: trim the range start and mark it dead in the backward scan
  let pos := ProgPoint.before (inst + 1)
  let (st, dst_lr) ←
    if ¬ nsMem b.live dst.vreg.vreg then
      add_liverange_to_vreg b.st dst.vreg.vreg ⟨pos, ProgPoint.next pos⟩
    else do
      let lr ← b.vranges.getD dst.vreg.vreg none
      pure (b.st, lr)
  let st :=
    if (rangeAt st dst_lr).range.«from» = f.block_entry block then
      setRangeFrom st dst_lr pos
    else st
  let st := setStartsAtDef st dst_lr
  let live := nsSet b.live dst.vreg.vreg false
  let vranges := modifyIdx (fun _ => none) dst.vreg.vreg b.vranges
  let st := { st with vreg_regs := modifyIdx (fun _ => dst.vreg) dst.vreg.vreg st.vreg_regs }
  -- the use: make it live back to the start of the block
  let upos := ProgPoint.after inst
  let srcDead := ¬ nsMem live src.vreg.vreg
  let (st, vranges, srcLrOpt) ←
    if srcDead then do
      let (st, src_lr) ← add_liverange_to_vreg st src.vreg.vreg
        ⟨f.block_entry block, ProgPoint.next upos⟩
      pure (st, modifyIdx (fun _ => some src_lr) src.vreg.vreg vranges, some src_lr)
    else pure (st, vranges, (none : Option ℕ))
  let live := nsSet live src.vreg.vreg true
  let st := { st with
      prog_move_srcs := st.prog_move_srcs ++ [(src.vreg.vreg, inst)],
      prog_move_dsts := st.prog_move_dsts ++ [(dst.vreg.vreg, inst + 1)] }
  let st :=
    match srcLrOpt with
    | some src_lr => { st with prog_move_merges := st.prog_move_merges ++ [(src_lr, dst_lr)] }
    | none => st
  pure (⟨st, live, vranges⟩ : BSt)

/-- Insert a safepoint instruction into the per-vreg safepoint set of a
(reference-typed) vreg, if the vreg has an entry in the map. -/
def spvInsert (l : List (ℕ × List ℕ)) (v inst : ℕ) : List (ℕ × List ℕ) :=
  l.map (fun p => if p.1 = v then (p.1, nsInsert p.2 inst) else p)

/-- Process one instruction of the reverse scan: clobbers, then either the
move special cases (which skip operand and safepoint processing) or the
operand passes followed by safepoint collection. -/
def processInst (f : Func) (block : ℕ) (b : BSt) (inst : ℕ) : Option BSt := do
  let st :=
    if (f.inst_clobbers inst).length > 0 then { b.st with clobbers := b.st.clobbers ++ [inst] }
    else b.st
  let st := (f.inst_clobbers inst).foldl
    (fun st clobber =>
      add_liverange_to_preg st ⟨ProgPoint.after inst, ProgPoint.before (inst + 1)⟩ clobber)
    st
  let b : BSt := ⟨st, b.live, b.vranges⟩
  let reused := findReuse (f.inst_operands inst)
  match f.is_move inst with
  | some (src, dst) =>
    if src.vreg = dst.vreg then pure b
    else if src.vreg.cls = dst.vreg.cls ∧ src.kind = OperandKind.Use
        ∧ src.pos = OperandPos.Early ∧ dst.kind = OperandKind.Def
        ∧ dst.pos = OperandPos.Late then
      if (vregAt b.st src.vreg.vreg).is_pinned ∧ (vregAt b.st dst.vreg.vreg).is_pinned then
        processMoveBothPinned f block inst src dst b
      else if (vregAt b.st src.vreg.vreg).is_pinned ∨ (vregAt b.st dst.vreg.vreg).is_pinned then
        processMoveOnePinned f block inst src dst b
      else
        processMoveNeitherPinned f block inst src dst b
    else none
  | none => do
    let b ← processInstOps f block inst reused b
    if f.requires_refs_on_stack inst then
      let st := { b.st with safepoints := b.st.safepoints ++ [inst] }
      let st := b.live.foldl
        (fun st v => { st with safepoints_per_vreg := spvInsert st.safepoints_per_vreg v inst })
        st
      pure (⟨st, b.live, b.vranges⟩ : BSt)
    else pure b

/-- Process one block of the reverse scan. -/
def processBlock (f : Func) (acc : St × List (Option ℕ)) (block : ℕ) :
    Option (St × List (Option ℕ)) := do
  let live0 := acc.1.liveouts.getD block []
  let b0 : BSt := ⟨acc.1, live0, acc.2⟩
  -- seed a whole-block range for every live-out vreg (ascending bitset order)
  let b ← live0.foldlM
    (fun (b : BSt) vreg => do
      let range : CodeRange := ⟨f.block_entry block, ProgPoint.next (f.block_exit block)⟩
      let (st, lr) ← add_liverange_to_vreg b.st vreg range
      pure (⟨st, b.live, modifyIdx (fun _ => some lr) vreg b.vranges⟩ : BSt))
    b0
  -- blockparam vreg data
  let st := (f.block_params block).foldl
    (fun st p =>
      { st with
          vreg_regs := modifyIdx (fun _ => p) p.vreg st.vreg_regs,
          vregs := modifyIdx (fun d => { d with blockparam := some block }) p.vreg st.vregs })
    b.st
  -- blockparam_outs entries when the block ends with a branch
  let st ←
    match (f.block_insns block).getLast? with
    | some last =>
      if f.is_branch last then do
        let operands := f.inst_operands last
        let i0 := f.branch_blockparam_arg_offset block last
        let pr ← (f.block_succs block).foldlM
          (fun (pr : St × ℕ) succ =>
            (f.block_params succ).foldlM
              (fun (pr : St × ℕ) blockparam => do
                let op ← operands.get? pr.2
                pure
                  ({ pr.1 with
                      blockparam_outs := pr.1.blockparam_outs ++
                        [(op.vreg.vreg, block, succ, blockparam.vreg)] },
                   pr.2 + 1))
              pr)
          (st, i0)
        pure pr.1
      else pure st
    | none => pure st
  let b : BSt := ⟨st, b.live, b.vranges⟩
  -- instructions in reverse
  let b ← (f.block_insns block).reverse.foldlM (fun b inst => processInst f block b inst) b
  -- blockparams define vregs at the very top of the block
  let b ← (f.block_params block).foldlM
    (fun (b : BSt) vreg => do
      let b ←
        if nsMem b.live vreg.vreg then
          pure (⟨b.st, nsSet b.live vreg.vreg false, b.vranges⟩ : BSt)
        else do
          let start := f.block_entry block
          let (st, _) ← add_liverange_to_vreg b.st vreg.vreg ⟨start, ProgPoint.next start⟩
          pure (⟨st, b.live, b.vranges⟩ : BSt)
      let st := (f.block_preds block).foldl
        (fun st pred => { st with blockparam_ins := st.blockparam_ins ++ [(vreg.vreg, block, pred)] })
        b.st
      pure (⟨st, b.live, b.vranges⟩ : BSt))
    b
  pure (b.st, b.vranges)

/-- The whole reverse scan over all blocks, threading `vreg_ranges`. -/
def buildAll (f : Func) (st : St) : Option St :=
  ((List.range f.num_blocks).reverse.foldlM (processBlock f)
    (st, (List.replicate f.num_vregs (none : Option ℕ)))).map Prod.fst

/-!
### Finalization, safepoint stack-use injection, multi-fixed-reg fixup
-/

/-- Insertion into a list sorted by `le` (used to model the final
`sort_unstable` calls). -/
def insSortedBy (le : α → α → Bool) (a : α) : List α → List α
  | [] => [a]
  | h :: t => if le a h then a :: h :: t else h :: insSortedBy le a t

/-- Insertion sort by `le`. -/
def sortBy (le : α → α → Bool) (l : List α) : List α :=
  l.foldr (insSortedBy le) []

/-- `≤` on naturals as a `Bool`. -/
def leN (a b : ℕ) : Bool := decide (a ≤ b)

/-- Lexicographic `≤` on pairs. -/
def lex2 (a b : ℕ × ℕ) : Bool :=
  decide (a.1 < b.1) || (decide (a.1 = b.1) && decide (a.2 ≤ b.2))

/-- Lexicographic `≤` on triples. -/
def lex3 (a b : ℕ × ℕ × ℕ) : Bool :=
  decide (a.1 < b.1) || (decide (a.1 = b.1) && lex2 a.2 b.2)

/-- Lexicographic `≤` on quadruples. -/
def lex4 (a b : ℕ × ℕ × ℕ × ℕ) : Bool :=
  decide (a.1 < b.1) || (decide (a.1 = b.1) && lex3 a.2 b.2)

/-- Refresh cached entry ranges from the authoritative records (defs may
have trimmed them). -/
def refreshEntries (ranges : List LiveRange) (es : List LiveRangeListEntry) :
    List LiveRangeListEntry :=
  es.map (fun e => { e with range := (ranges.getD e.index default).range })

/-- The finalization assertion: consecutive entries are in order and
non-overlapping (`last.to ≤ next.from`). -/
def chainOk : List LiveRangeListEntry → Bool
  | [] => true
  | [_] => true
  | a :: b :: t => decide (a.range.«to» ≤ b.range.«from») && chainOk (b :: t)

/-- Ascending use positions (`windows(2).all(|w| w[0].pos <= w[1].pos)`). -/
def usesSortedOk : List Use → Bool
  | [] => true
  | [_] => true
  | a :: b :: t => decide (a.pos ≤ b.pos) && usesSortedOk (b :: t)

/-- Reverse each vreg's range list, refresh each cached entry range from the
record, and assert order/non-overlap (panic modelled as `none`). -/
def finalizeVRegs (st : St) : Option St :=
  let newVregs := st.vregs.map
    (fun d => { d with ranges := refreshEntries st.ranges d.ranges.reverse })
  if newVregs.all (fun d => chainOk d.ranges) then some { st with vregs := newVregs }
  else none

/-- Reverse each record's use list and assert ascending positions (the
`debug_assert` of the source, modelled as a fatal assertion). -/
def reverseUses (st : St) : Option St :=
  let newRanges := st.ranges.map (fun r => { r with uses := r.uses.reverse })
  if newRanges.all (fun r => usesSortedOk r.uses) then
    some { st with ranges := newRanges }
  else none

/-- Re-sort a record's uses by position (`sort_unstable_by_key(|u| u.pos)`). -/
def sortRangeUses (st : St) (idx : ℕ) : St :=
  { st with
      ranges := modifyIdx
        (fun r => { r with uses := sortBy (fun a b => leN a.pos b.pos) r.uses }) idx st.ranges }

/-- Inner safepoint loop for one range entry: insert a virtual Stack use at
`Before(s)` for each safepoint `s` (from the cursor suffix) contained in the
entry's range, advancing the cursor. -/
def injectInsertLoop (f : Func) (st : St) (index : ℕ) (vr : VReg) (range : CodeRange) :
    List ℕ → Bool → St × List ℕ × Bool
  | [], inserted => (st, [], inserted)
  | s :: rest, inserted =>
    if range.containsPoint (ProgPoint.before s) then
      let operand : Operand := ⟨vr, OperandConstraint.Stack, OperandKind.Use, OperandPos.Early⟩
      let st := insert_use_into_liverange f.insn_block f.approx_loop_depth st index
        (Use.new operand (ProgPoint.before s) SLOT_NONE)
      injectInsertLoop f st index vr range rest true
    else (st, s :: rest, inserted)

/-- Process one range entry of the safepoint cursor walk: skip safepoints
before the range, insert the ones inside it, and re-sort the record's uses
if any insertion has happened for this vreg so far. -/
def injectEntry (f : Func) (st : St) (vr : VReg) (e : LiveRangeListEntry)
    (sps : List ℕ) (inserted : Bool) : St × List ℕ × Bool :=
  let sps1 := sps.dropWhile (fun s => ProgPoint.before s < e.range.«from»)
  let p := injectInsertLoop f st e.index vr e.range sps1 inserted
  let st := if p.2.2 then sortRangeUses p.1 e.index else p.1
  (st, p.2.1, p.2.2)

/-- The cursor walk over one vreg's (finalized, ascending) range list; the
walk stops early when the safepoint cursor is exhausted. -/
def injectEntries (f : Func) (st : St) (vr : VReg) :
    List LiveRangeListEntry → List ℕ → Bool → St
  | [], _, _ => st
  | e :: rest, sps, inserted =>
    let p := injectEntry f st vr e sps inserted
    if p.2.1 = [] then p.1 else injectEntries f p.1 vr rest p.2.1 p.2.2

/-- The injection pass for one reference-typed vreg: skip pinned vregs,
otherwise walk the vreg's range list with a fresh cursor. -/
def injectVRegStep (f : Func) (st : St) (v : VReg) : St :=
  if (vregAt st v.vreg).is_pinned then st
  else injectEntries f st (st.vreg_regs.getD v.vreg default) (vRanges st v.vreg)
    st.safepoints false

/-- Safepoint stack-use injection: for each reference-typed non-pinned vreg,
walk its range list with a monotone safepoint cursor. -/
def injectAll (f : Func) (st : St) : St :=
  f.reftype_vregs.foldl (injectVRegStep f) st

/-- Tracking state of the multi-fixed-reg fixup closure, plus the fixup list
and the per-range extra-clobber accumulator. -/
structure FixupAcc where
  lastPoint : Option ℕ
  seen : List VReg
  first : List ℕ
  fixups : List (ℕ × ℕ × ℕ × ℕ)
  extra : List (ℕ × ℕ)
deriving DecidableEq, Repr

/-- `fixup_multi_fixed_vregs`: one use of the scan.  Clears the per-point
tracking sets when the position changes; for a `FixedReg(preg)` use of a
vreg already recorded with a different first preg at this position, demotes
the constraint to `Reg`, records the fixup tuple and an extra clobber. -/
def fixup_step (a : FixupAcc) (pos slot : ℕ) (op : Operand) : FixupAcc × Operand :=
  let a :=
    if a.lastPoint ≠ none ∧ a.lastPoint ≠ some pos then
      { a with seen := [], first := [] }
    else a
  let a := { a with lastPoint := some pos }
  match op.constraint with
  | OperandConstraint.FixedReg preg =>
    match a.seen.findIdx? (fun r => r = op.vreg) with
    | some idx =>
      let orig := a.first.getD idx 0
      if orig ≠ preg then
        ({ a with
            fixups := a.fixups ++ [(pos, orig, preg, slot)],
            extra := a.extra ++ [(preg, ProgPoint.inst pos)] },
         ⟨op.vreg, OperandConstraint.Reg, op.kind, op.pos⟩)
      else (a, op)
    | none => ({ a with seen := a.seen ++ [op.vreg], first := a.first ++ [preg] }, op)
  | _ => (a, op)

/-- Scan a use list in order through `fixup_step`, rewriting operands. -/
def fixupUses (a : FixupAcc) : List Use → FixupAcc × List Use
  | [] => (a, [])
  | u :: rest =>
    let p := fixup_step a u.pos u.slot u.operand
    let q := fixupUses p.1 rest
    (q.1, { u with operand := p.2 } :: q.2)

/-- Reserve `[Before(inst), Before(inst+1))` on each extra-clobbered preg. -/
def flushExtraClobbers (st : St) : List (ℕ × ℕ) → St
  | [] => st
  | (clobber, inst) :: rest =>
    flushExtraClobbers
      (add_liverange_to_preg st ⟨ProgPoint.before inst, ProgPoint.before (inst + 1)⟩ clobber)
      rest

/-- The fixup pass over one live-range record: scan its uses (fresh
tracking state), append to the global fixup list, then flush the extra
clobbers collected for this range. -/
def fixupRange (st : St) (idx : ℕ) : St :=
  let a0 : FixupAcc := ⟨none, [], [], st.multi_fixed_reg_fixups, []⟩
  let p := fixupUses a0 (rangeAt st idx).uses
  let st :=
    { st with
        ranges := modifyIdx (fun r => { r with uses := p.2 }) idx st.ranges,
        multi_fixed_reg_fixups := p.1.fixups }
  flushExtraClobbers st p.1.extra

/-- The multi-fixed-reg fixup pass over every vreg's range list. -/
def fixupAll (st : St) : St :=
  (List.range st.vregs.length).foldl
    (fun st v => (vRanges st v).foldl (fun st e => fixupRange st e.index) st)
    st

/-- The final sorts of the side tables. -/
def finalSorts (st : St) : St :=
  { st with
      clobbers := sortBy leN st.clobbers,
      blockparam_ins := sortBy lex3 st.blockparam_ins,
      blockparam_outs := sortBy lex4 st.blockparam_outs,
      prog_move_srcs := sortBy lex2 st.prog_move_srcs,
      prog_move_dsts := sortBy lex2 st.prog_move_dsts }

/-- Insert-or-replace into the `safepoints_per_vreg` association map. -/
def spvInit (l : List (ℕ × List ℕ)) (v : ℕ) : List (ℕ × List ℕ) :=
  if l.any (fun p => p.1 = v) then l.map (fun p => if p.1 = v then (p.1, []) else p)
  else l ++ [(v, [])]

/-- Everything after the entry-live-in check: the reverse scan, the
safepoint sort, finalization, use reversal, safepoint injection, the
multi-fixed-reg fixup and the final sorts. -/
def postBuild (f : Func) (st : St) : Option St :=
  match buildAll f st with
  | none => none
  | some st =>
    match finalizeVRegs { st with safepoints := sortBy leN st.safepoints } with
    | none => none
    | some st =>
      match reverseUses st with
      | none => none
      | some st => some (finalSorts (fixupAll (injectAll f st)))

/-- The state handed to range construction: the initial store with the
solved live sets and an empty safepoint set per reference-typed vreg. -/
def preBuildSt (f : Func) (liveins liveouts : List (List ℕ)) : St :=
  { initialSt f with
      liveins := liveins,
      liveouts := liveouts,
      safepoints_per_vreg :=
        f.reftype_vregs.foldl (fun l v => spvInit l v.vreg) [] }

/-- `Env::compute_liveness`: the dataflow solver (with fuel), the
`EntryLivein` check, then the construction pipeline.  A Rust panic anywhere
is `none`; the only `Err` value ever produced is `EntryLivein`. -/
def compute_liveness (f : Func) (fuel : ℕ) : Option (Except RegAllocError St) :=
  match solveFix f fuel with
  | none => none
  | some (liveins, liveouts) =>
    if liveins.getD f.entry_block [] ≠ [] then
      some (Except.error RegAllocError.EntryLivein)
    else
      (postBuild f (preBuildSt f liveins liveouts)).map Except.ok

/-!
### Auxiliary notions used by the theorems, and concrete example inputs
-/

/-- The safepoint stack-use pattern at safepoint `s`: constraint `Stack`,
kind `Use`, position `Before(s)`, slot `SLOT_NONE`. -/
def matchStackUse (s : ℕ) (u : Use) : Bool :=
  decide (u.operand.constraint = OperandConstraint.Stack) &&
    decide (u.operand.kind = OperandKind.Use) &&
    decide (u.pos = ProgPoint.before s) &&
    decide (u.slot = SLOT_NONE)

/-- The reserved intervals on a preg's allocation map. -/
def pregAllocs (st : St) (p : ℕ) : List CodeRange :=
  (st.pregs.getD p default).allocations

/-- The interval bounds of all live-range records (phases after
finalization modify use lists and side tables but never these bounds). -/
def rangesShape (st : St) : List CodeRange :=
  st.ranges.map LiveRange.range

/-- The state components finalization establishes invariants about and the
later phases preserve: the vreg arena, the vreg registers, the safepoint
list, and the bounds of every live-range record. -/
def stFrame (s s' : St) : Prop :=
  s'.vregs = s.vregs ∧ s'.vreg_regs = s.vreg_regs ∧ s'.safepoints = s.safepoints ∧
    rangesShape s' = rangesShape s

instance {ε α : Type} [DecidableEq ε] [DecidableEq α] : DecidableEq (Except ε α) :=
  fun a b =>
    match a, b with
    | Except.ok x, Except.ok y =>
      if h : x = y then isTrue (by rw [h])
      else isFalse (by intro hc; injection hc; contradiction)
    | Except.error x, Except.error y =>
      if h : x = y then isTrue (by rw [h])
      else isFalse (by intro hc; injection hc; contradiction)
    | Except.ok _, Except.error _ => isFalse (fun hc => Except.noConfusion hc)
    | Except.error _, Except.ok _ => isFalse (fun hc => Except.noConfusion hc)

instance : Inhabited St :=
  ⟨{ pregs := [], vregs := [], vreg_regs := [], ranges := [], liveins := [],
     liveouts := [], blockparam_ins := [], blockparam_outs := [],
     prog_move_srcs := [], prog_move_dsts := [], prog_move_merges := [],
     safepoints := [], safepoints_per_vreg := [], multi_fixed_reg_fixups := [],
     clobbers := [], inserted_moves := [] }⟩

/-- Extract the state of a successful run (used by witnesses). -/
def okResult (r : Option (Except RegAllocError St)) : St :=
  match r with
  | some (Except.ok st) => st
  | _ => default

/-- Example: a single-block program `i0: v0 = ...` (Def, Late),
`i1: ... = v0` (Use, Early), with an empty live-out. -/
def exF1 : Func :=
  { num_insts := 2, num_blocks := 1, num_vregs := 1, entry_block := 0,
    block_insns := fun b => if b = 0 then [0, 1] else [],
    block_params := fun _ => [],
    block_preds := fun _ => [], block_succs := fun _ => [],
    inst_operands := fun i =>
      if i = 0 then
        [⟨⟨0, RegClass.Int⟩, OperandConstraint.Reg, OperandKind.Def, OperandPos.Late⟩]
      else if i = 1 then
        [⟨⟨0, RegClass.Int⟩, OperandConstraint.Any, OperandKind.Use, OperandPos.Early⟩]
      else [],
    inst_clobbers := fun _ => [],
    is_move := fun _ => none,
    is_branch := fun _ => false,
    branch_blockparam_arg_offset := fun _ _ => 0,
    reftype_vregs := [], pinned_vregs := [],
    is_pinned_vreg := fun _ => none,
    requires_refs_on_stack := fun _ => false,
    postorder := [0],
    insn_block := fun _ => 0,
    block_entry := fun _ => 0,
    block_exit := fun _ => 3,
    approx_loop_depth := fun _ => 0 }

/-- Example: like `exF1` but instruction 1 claims to be a move whose source
operand has kind `Def` instead of `Use`, so range construction trips the
`assert_eq!(src.kind(), OperandKind::Use)` (a panic) although the entry
block's live-in is empty. -/
def exBadMoveF : Func :=
  { exF1 with
    num_vregs := 2,
    is_move := fun i =>
      if i = 1 then
        some (⟨⟨0, RegClass.Int⟩, OperandConstraint.Any, OperandKind.Def, OperandPos.Early⟩,
              ⟨⟨1, RegClass.Int⟩, OperandConstraint.Any, OperandKind.Def, OperandPos.Late⟩)
      else none,
    inst_operands := fun i =>
      if i = 0 then
        [⟨⟨0, RegClass.Int⟩, OperandConstraint.Reg, OperandKind.Def, OperandPos.Late⟩]
      else [] }

/-- Example: `i0` defines the reference-typed `v0`, `i1` is a safepoint,
`i2` uses `v0`. -/
def exF2 : Func :=
  { exF1 with
    num_insts := 3,
    block_insns := fun b => if b = 0 then [0, 1, 2] else [],
    inst_operands := fun i =>
      if i = 0 then
        [⟨⟨0, RegClass.Int⟩, OperandConstraint.Reg, OperandKind.Def, OperandPos.Late⟩]
      else if i = 2 then
        [⟨⟨0, RegClass.Int⟩, OperandConstraint.Any, OperandKind.Use, OperandPos.Early⟩]
      else [],
    reftype_vregs := [⟨0, RegClass.Int⟩],
    requires_refs_on_stack := fun i => i = 1,
    block_exit := fun _ => 5 }

/-- Example: a one-instruction block ending in a branch whose block-exit
point is the branch's `After` point. -/
def exBranchF : Func :=
  { exF1 with
    num_insts := 1,
    block_insns := fun b => if b = 0 then [0] else [],
    inst_operands := fun _ => [],
    is_branch := fun i => i = 0,
    block_exit := fun _ => 1 }

/-- Example store with one vreg and no ranges (for the fresh-range case of
`add_liverange_to_vreg`). -/
def exSt0 : St :=
  { pregs := [], vregs := [⟨[], none, false, false⟩], vreg_regs := [⟨0, RegClass.Int⟩],
    ranges := [], liveins := [], liveouts := [], blockparam_ins := [],
    blockparam_outs := [], prog_move_srcs := [], prog_move_dsts := [],
    prog_move_merges := [], safepoints := [], safepoints_per_vreg := [],
    multi_fixed_reg_fixups := [], clobbers := [], inserted_moves := [] }

/-- Example store whose vreg 0 already has one range `[5, 9)` (for the
coalescing case of `add_liverange_to_vreg`). -/
def exSt1 : St :=
  { exSt0 with
    ranges := [{ range := ⟨5, 9⟩, vreg := some 0, bundle := none, startsAtDef := false,
                 usesSpillWeightBits := 0, uses := [], mergedInto := none }],
    vregs := [⟨[⟨⟨5, 9⟩, 0⟩], none, false, false⟩] }

/-- Example store for the safepoint-injection witness: vreg 0 (reference
typed under `exF2`) has the finalized range `[1, 5)` with a def use at 1 and
a use at 4; the safepoint list is `[1]`. -/
def exStW : St :=
  { exSt0 with
    ranges := [{ range := ⟨1, 5⟩, vreg := some 0, bundle := none, startsAtDef := true,
                 usesSpillWeightBits := 0,
                 uses := [Use.new ⟨⟨0, RegClass.Int⟩, OperandConstraint.Reg, OperandKind.Def, OperandPos.Late⟩ 1 0,
                          Use.new ⟨⟨0, RegClass.Int⟩, OperandConstraint.Any, OperandKind.Use, OperandPos.Early⟩ 4 0],
                 mergedInto := none }],
    vregs := [⟨[⟨⟨1, 5⟩, 0⟩], none, true, false⟩],
    safepoints := [1] }

/-!
## Theorems

First a toolbox of list lemmas about the primitive operations of the
embedding, then one theorem per claim (with witnesses and counterexamples).
-/

theorem nsInsert_of_forall_lt {t : List ℕ} {v : ℕ} (h : ∀ x ∈ t, v < x) :
    nsInsert t v = v :: t := by
  cases t with
  | nil => rfl
  | cons h' t' =>
    have hv := h h' (by simp)
    simp [nsInsert, hv]

theorem nsRemove_of_forall_lt {t : List ℕ} {v : ℕ} (h : ∀ x ∈ t, v < x) :
    nsRemove t v = t := by
  induction t with
  | nil => rfl
  | cons h' t' ih =>
    have hv : v < h' := h h' (by simp)
    have : (h' ≠ v) = True := by simp; omega
    simp only [nsRemove, List.filter_cons]
    rw [if_pos (by simp; omega)]
    have := ih (fun x hx => h x (by simp [hx]))
    simpa [nsRemove] using this

theorem nsInsert_nsRemove {l : List ℕ} {v : ℕ} (h : List.Pairwise (· < ·) l) :
    nsInsert (nsRemove l v) v = nsInsert l v := by
  induction l with
  | nil => rfl
  | cons hd t ih =>
    rw [List.pairwise_cons] at h
    obtain ⟨hh, ht⟩ := h
    rcases Nat.lt_trichotomy v hd with hlt | heq | hgt
    · have ht' : ∀ x ∈ t, v < x := fun x hx => lt_trans hlt (hh x hx)
      have h1 : nsRemove (hd :: t) v = hd :: t := by
        simp only [nsRemove, List.filter_cons]
        rw [if_pos (by simp; omega)]
        have := nsRemove_of_forall_lt ht'
        simpa [nsRemove] using this
      rw [h1]
    · subst heq
      have ht' : ∀ x ∈ t, v < x := hh
      have h1 : nsRemove (v :: t) v = t := by
        simp only [nsRemove, List.filter_cons]
        rw [if_neg (by simp)]
        exact nsRemove_of_forall_lt ht'
      rw [h1, nsInsert_of_forall_lt ht']
      simp [nsInsert]
    · have h1 : nsRemove (hd :: t) v = hd :: nsRemove t v := by
        simp only [nsRemove, List.filter_cons]
        rw [if_pos (by simp; omega)]
      rw [h1]
      have h2 : ¬ v < hd := by omega
      have h3 : ¬ v = hd := by omega
      simp only [nsInsert, if_neg h2, if_neg h3]
      rw [ih ht]

theorem nsInsert_eq_self_iff {l : List ℕ} {v : ℕ} (h : List.Pairwise (· < ·) l) :
    nsInsert l v = l ↔ v ∈ l := by
  induction l with
  | nil => simp [nsInsert]
  | cons hd t ih =>
    rw [List.pairwise_cons] at h
    obtain ⟨hh, ht⟩ := h
    rcases Nat.lt_trichotomy v hd with hlt | heq | hgt
    · simp only [nsInsert, if_pos hlt]
      constructor
      · intro he
        exact absurd (congrArg List.length he) (by simp)
      · intro hm
        rcases List.mem_cons.mp hm with h1 | h1
        · omega
        · have := hh v h1; omega
    · subst heq
      simp [nsInsert]
    · have h2 : ¬ v < hd := by omega
      have h3 : ¬ v = hd := by omega
      simp only [nsInsert, if_neg h2, if_neg h3]
      constructor
      · intro he
        have := (List.cons.injEq hd (nsInsert t v) hd t).mp he
        exact List.mem_cons_of_mem hd ((ih ht).mp this.2)
      · intro hm
        rcases List.mem_cons.mp hm with h1 | h1
        · omega
        · rw [(ih ht).mpr h1]

theorem modifyIdx_length (f : α → α) : ∀ (i : ℕ) (l : List α),
    (modifyIdx f i l).length = l.length := by
  intro i l
  induction l generalizing i with
  | nil => cases i <;> rfl
  | cons a as ih => cases i with
    | zero => rfl
    | succ n => simp [modifyIdx, ih]

theorem getD_modifyIdx_ne (f : α → α) (d : α) : ∀ (i j : ℕ) (l : List α), i ≠ j →
    (modifyIdx f i l).getD j d = l.getD j d := by
  intro i j l
  induction l generalizing i j with
  | nil => intro _; cases i <;> rfl
  | cons a as ih =>
    intro h
    cases i with
    | zero =>
      cases j with
      | zero => exact absurd rfl h
      | succ m => simp [modifyIdx]
    | succ n =>
      cases j with
      | zero => simp [modifyIdx]
      | succ m =>
        simp only [modifyIdx, List.getD_cons_succ]
        exact ih n m (by omega)

theorem getD_modifyIdx_self (f : α → α) (d : α) : ∀ (i : ℕ) (l : List α),
    i < l.length → (modifyIdx f i l).getD i d = f (l.getD i d) := by
  intro i l
  induction l generalizing i with
  | nil => intro h; simp at h
  | cons a as ih =>
    intro h
    cases i with
    | zero => rfl
    | succ n =>
      simp only [modifyIdx, List.getD_cons_succ]
      exact ih n (by simpa using h)

theorem map_modifyIdx (g : α → β) (f : α → α) (h : ∀ a, g (f a) = g a) :
    ∀ (i : ℕ) (l : List α), (modifyIdx f i l).map g = l.map g := by
  intro i l
  induction l generalizing i with
  | nil => cases i <;> rfl
  | cons a as ih =>
    cases i with
    | zero => simp [modifyIdx, h]
    | succ n => simp [modifyIdx, ih]

theorem modifyIdx_append_len (f : α → α) : ∀ (l : List α) (a : α),
    modifyIdx f l.length (l ++ [a]) = l ++ [f a] := by
  intro l a
  induction l with
  | nil => rfl
  | cons b bs ih => simp [modifyIdx, ih]

/-- C1: `add_liverange_to_vreg` obeys the reverse-contiguity rule: when the
vreg's range list is empty or the new range ends strictly before the most
recently added range's start, a fresh record with the given bounds and the
vreg field set is created, the `(range, index)` entry is appended and the
new index returned; when the new range's end equals that start, no record
is created — the existing front record's `from` is overwritten and its
index returned. -/
theorem C1_add_liverange_to_vreg_spec : ∀ (st : St) (v : ℕ) (r : CodeRange),
    ((vRanges st v = [] ∨ r.«to» < lastRangeFrom st v) →
      add_liverange_to_vreg st v r =
        some ({ st with
                 ranges := st.ranges ++
                   [{ range := r, vreg := some v, bundle := none, startsAtDef := false,
                      usesSpillWeightBits := 0, uses := [], mergedInto := none }],
                 vregs := modifyIdx
                   (fun dd => { dd with ranges := dd.ranges ++ [⟨r, st.ranges.length⟩] })
                   v st.vregs },
              st.ranges.length))
    ∧ (∀ e, (vRanges st v).getLast? = some e → r.«to» = lastRangeFrom st v →
      add_liverange_to_vreg st v r = some (setRangeFrom st e.index r.«from», e.index)) := by
  intro st v r
  constructor
  · intro h
    have hle : vRanges st v = [] ∨ r.«to» ≤ lastRangeFrom st v := by
      rcases h with h | h
      · exact Or.inl h
      · exact Or.inr (le_of_lt h)
    unfold add_liverange_to_vreg
    rw [if_pos hle, if_pos h]
    unfold create_liverange
    simp only
    rw [modifyIdx_append_len]
  · intro e he heq
    have hne : vRanges st v ≠ [] := by
      intro hnil
      rw [hnil] at he
      exact absurd he (by simp)
    have hle : vRanges st v = [] ∨ r.«to» ≤ lastRangeFrom st v := Or.inr (le_of_eq heq)
    have hnlt : ¬ (vRanges st v = [] ∨ r.«to» < lastRangeFrom st v) := by
      rintro (h | h)
      · exact hne h
      · omega
    unfold add_liverange_to_vreg
    rw [if_pos hle, if_neg hnlt, he]
    rfl

/-- C1 witness: the fresh-range case on a store with no ranges, and the
coalescing case on a store whose front range is `[5, 9)`. -/
theorem C1_witness :
    add_liverange_to_vreg exSt0 0 ⟨1, 3⟩ =
      some ({ exSt0 with
               ranges := exSt0.ranges ++ [⟨⟨1, 3⟩, some 0, none, false, 0, [], none⟩],
               vregs := modifyIdx
                 (fun dd => { dd with ranges := dd.ranges ++ [⟨⟨1, 3⟩, exSt0.ranges.length⟩] })
                 0 exSt0.vregs },
            exSt0.ranges.length) ∧
    add_liverange_to_vreg exSt1 0 ⟨2, 5⟩ = some (setRangeFrom exSt1 0 2, 0) :=
  ⟨(C1_add_liverange_to_vreg_spec exSt0 0 ⟨1, 3⟩).1 (Or.inl (by decide)),
   (C1_add_liverange_to_vreg_spec exSt1 0 ⟨2, 5⟩).2 ⟨⟨5, 9⟩, 0⟩ (by decide) (by decide)⟩

theorem modifyIdx_oob (f : α → α) : ∀ (i : ℕ) (l : List α),
    l.length ≤ i → modifyIdx f i l = l := by
  intro i l
  induction l generalizing i with
  | nil => cases i <;> intro _ <;> rfl
  | cons a as ih =>
    intro h
    cases i with
    | zero => simp at h
    | succ n =>
      simp only [modifyIdx]
      rw [ih n (by simpa using h)]

theorem pregAllocs_add_self (st : St) (r : CodeRange) (p : ℕ)
    (h : p < st.pregs.length) :
    pregAllocs (add_liverange_to_preg st r p) p = pregAllocs st p ++ [r] := by
  unfold pregAllocs add_liverange_to_preg
  simp only
  rw [getD_modifyIdx_self _ _ _ _ h]

theorem pregAllocs_add_mono (st : St) (r : CodeRange) (q p : ℕ) (x : CodeRange)
    (h : x ∈ pregAllocs st p) : x ∈ pregAllocs (add_liverange_to_preg st r q) p := by
  by_cases hq : q = p
  · subst hq
    by_cases hlen : q < st.pregs.length
    · rw [pregAllocs_add_self st r q hlen]
      exact List.mem_append_left _ h
    · unfold pregAllocs add_liverange_to_preg
      simp only
      rw [modifyIdx_oob _ _ _ (by omega)]
      exact h
  · unfold pregAllocs add_liverange_to_preg
    simp only
    rw [getD_modifyIdx_ne _ _ _ _ _ hq]
    exact h

theorem pregs_length_add (st : St) (r : CodeRange) (q : ℕ) :
    (add_liverange_to_preg st r q).pregs.length = st.pregs.length := by
  unfold add_liverange_to_preg
  simp only
  rw [modifyIdx_length]

theorem flushExtraClobbers_mono (x : CodeRange) (p : ℕ) :
    ∀ (l : List (ℕ × ℕ)) (st : St), x ∈ pregAllocs st p →
      x ∈ pregAllocs (flushExtraClobbers st l) p := by
  intro l
  induction l with
  | nil => intro st h; exact h
  | cons hd tl ih =>
    intro st h
    cases hd with
    | mk c i =>
      exact ih _ (pregAllocs_add_mono st _ c p x h)

theorem flushExtraClobbers_mem : ∀ (l : List (ℕ × ℕ)) (st : St) (p i : ℕ),
    (p, i) ∈ l → p < st.pregs.length →
    (⟨ProgPoint.before i, ProgPoint.before (i + 1)⟩ : CodeRange) ∈
      pregAllocs (flushExtraClobbers st l) p := by
  intro l
  induction l with
  | nil => intro st p i h; simp at h
  | cons hd tl ih =>
    intro st p i hmem hlen
    rcases List.mem_cons.mp hmem with h1 | h1
    · subst h1
      show _ ∈ pregAllocs (flushExtraClobbers (add_liverange_to_preg st _ p) tl) p
      refine flushExtraClobbers_mono _ _ tl _ ?_
      rw [pregAllocs_add_self st _ p hlen]
      exact List.mem_append_right _ (by simp)
    · cases hd with
      | mk c j =>
        exact ih _ p i h1 (by rw [pregs_length_add]; exact hlen)

/-- C7: one step of the multi-fixed-reg fixup scan, at an unchanged
ProgPoint (`last_point = pos`, so the per-point tracking is not cleared):
a `FixedReg(preg)` use of a vreg whose first fixed preg at this point is a
different `p0` is demoted to `Reg`, `(pos, p0, preg, slot)` is appended to
the fixup list and `(preg, pos.inst)` to the extra clobbers; a use whose
preg matches the recorded first, or a vreg's first fixed use at the point,
is left unchanged (the latter only records the vreg and its preg); and
flushing the extra clobbers reserves `[Before(inst), Before(inst+1))` on
the new preg's allocation map. -/
theorem C7_multi_fixed_fixup :
    (∀ (seen : List VReg) (first : List ℕ) (fixups : List (ℕ × ℕ × ℕ × ℕ))
        (extra : List (ℕ × ℕ)) (pos slot : ℕ) (op : Operand) (preg p0 idx : ℕ),
      op.constraint = OperandConstraint.FixedReg preg →
      seen.findIdx? (fun r => r = op.vreg) = some idx →
      first.getD idx 0 = p0 →
      p0 ≠ preg →
      fixup_step ⟨some pos, seen, first, fixups, extra⟩ pos slot op =
        (⟨some pos, seen, first, fixups ++ [(pos, p0, preg, slot)],
           extra ++ [(preg, ProgPoint.inst pos)]⟩,
         ⟨op.vreg, OperandConstraint.Reg, op.kind, op.pos⟩))
    ∧ (∀ (seen : List VReg) (first : List ℕ) (fixups : List (ℕ × ℕ × ℕ × ℕ))
        (extra : List (ℕ × ℕ)) (pos slot : ℕ) (op : Operand) (preg idx : ℕ),
      op.constraint = OperandConstraint.FixedReg preg →
      seen.findIdx? (fun r => r = op.vreg) = some idx →
      first.getD idx 0 = preg →
      fixup_step ⟨some pos, seen, first, fixups, extra⟩ pos slot op =
        (⟨some pos, seen, first, fixups, extra⟩, op))
    ∧ (∀ (seen : List VReg) (first : List ℕ) (fixups : List (ℕ × ℕ × ℕ × ℕ))
        (extra : List (ℕ × ℕ)) (pos slot : ℕ) (op : Operand) (preg : ℕ),
      op.constraint = OperandConstraint.FixedReg preg →
      seen.findIdx? (fun r => r = op.vreg) = none →
      fixup_step ⟨some pos, seen, first, fixups, extra⟩ pos slot op =
        (⟨some pos, seen ++ [op.vreg], first ++ [preg], fixups, extra⟩, op))
    ∧ (∀ (st : St) (p i : ℕ) (l : List (ℕ × ℕ)),
      (p, i) ∈ l →
      (⟨ProgPoint.before i, ProgPoint.before (i + 1)⟩ : CodeRange) ∈
        pregAllocs (flushExtraClobbers st l) p ∨ ¬ p < st.pregs.length) := by
  refine ⟨?_, ?_, ?_, ?_⟩
  · intro seen first fixups extra pos slot op preg p0 idx hc hfind hfirst hne
    simp only [fixup_step, hc, hfind, hfirst, ne_eq, not_true_eq_false, and_false,
      if_false, if_pos hne]
  · intro seen first fixups extra pos slot op preg idx hc hfind hfirst
    simp only [fixup_step, hc, hfind, hfirst, ne_eq, not_true_eq_false, and_false,
      if_false, if_neg (by simp : ¬ ¬ preg = preg)]
  · intro seen first fixups extra pos slot op preg hc hfind
    simp only [fixup_step, hc, hfind, ne_eq, not_true_eq_false, and_false, if_false]
  · intro st p i l hmem
    by_cases hlen : p < st.pregs.length
    · exact Or.inl (flushExtraClobbers_mem l st p i hmem hlen)
    · exact Or.inr hlen

/-- C7 witness: concrete instances of the three scan cases and the flush. -/
theorem C7_witness :
    fixup_step ⟨some 6, [⟨3, RegClass.Int⟩], [2], [], []⟩ 6 1
        ⟨⟨3, RegClass.Int⟩, OperandConstraint.FixedReg 4, OperandKind.Use, OperandPos.Early⟩ =
      (⟨some 6, [⟨3, RegClass.Int⟩], [2], [(6, 2, 4, 1)], [(4, 3)]⟩,
       ⟨⟨3, RegClass.Int⟩, OperandConstraint.Reg, OperandKind.Use, OperandPos.Early⟩) ∧
    fixup_step ⟨some 6, [⟨3, RegClass.Int⟩], [2], [], []⟩ 6 1
        ⟨⟨3, RegClass.Int⟩, OperandConstraint.FixedReg 2, OperandKind.Use, OperandPos.Early⟩ =
      (⟨some 6, [⟨3, RegClass.Int⟩], [2], [], []⟩,
       ⟨⟨3, RegClass.Int⟩, OperandConstraint.FixedReg 2, OperandKind.Use, OperandPos.Early⟩) ∧
    fixup_step ⟨some 6, [⟨3, RegClass.Int⟩], [2], [], []⟩ 6 0
        ⟨⟨7, RegClass.Int⟩, OperandConstraint.FixedReg 5, OperandKind.Def, OperandPos.Late⟩ =
      (⟨some 6, [⟨3, RegClass.Int⟩, ⟨7, RegClass.Int⟩], [2, 5], [], []⟩,
       ⟨⟨7, RegClass.Int⟩, OperandConstraint.FixedReg 5, OperandKind.Def, OperandPos.Late⟩) ∧
    ((⟨ProgPoint.before 3, ProgPoint.before 4⟩ : CodeRange) ∈
        pregAllocs (flushExtraClobbers exStW [(4, 3)]) 4 ∨ ¬ (4 : ℕ) < exStW.pregs.length) :=
  ⟨C7_multi_fixed_fixup.1 [⟨3, RegClass.Int⟩] [2] [] [] 6 1 _ 4 2 0 rfl (by decide) rfl (by decide),
   C7_multi_fixed_fixup.2.1 [⟨3, RegClass.Int⟩] [2] [] [] 6 1 _ 2 0 rfl (by decide) rfl,
   C7_multi_fixed_fixup.2.2.1 [⟨3, RegClass.Int⟩] [2] [] [] 6 0 _ 5 rfl (by decide),
   C7_multi_fixed_fixup.2.2.2 exStW 4 3 [(4, 3)] (by decide)⟩

/-- C6 counterexample: in the dataflow solver's per-instruction step, a
same-vreg move is *not* a no-op on the live set: starting from the empty
set, the move `v0 := v0` leaves `v0` live. -/
theorem C6_same_vreg_move_not_noop : ¬ (dataflowMoveUpdate [] 0 0 = []) := by
  decide

/-- C6 (amended): the solver handles a move by `live[dst] := false` then
`live[src] := true`; for `src = dst = v` the net effect on a strictly
sorted live set is exactly `live[v] := true`, so the set is unchanged iff
`v` was already live. -/
theorem C6_dataflow_move_update : ∀ (live : List ℕ) (v : ℕ),
    List.Pairwise (· < ·) live →
    dataflowMoveUpdate live v v = nsInsert live v ∧
      (dataflowMoveUpdate live v v = live ↔ v ∈ live) := by
  intro live v h
  have h1 : dataflowMoveUpdate live v v = nsInsert live v := by
    unfold dataflowMoveUpdate nsSet
    simp only [if_pos, if_neg]
    exact nsInsert_nsRemove h
  exact ⟨h1, by rw [h1]; exact nsInsert_eq_self_iff h⟩

/-- C6 witness: concrete instance of the amended statement. -/
theorem C6_witness :
    dataflowMoveUpdate [0, 2] 2 2 = nsInsert [0, 2] 2 ∧
      (dataflowMoveUpdate [0, 2] 2 2 = [0, 2] ↔ 2 ∈ [0, 2]) :=
  C6_dataflow_move_update [0, 2] 2 (by decide)

/-- C5: during range construction of a non-move branch instruction, every
`Use` operand — `Early` or `Late` — has effective ProgPoint
`block_exit[b]` (for `Late` uses because the branch is the block's last
instruction, whose `After` point is the block exit). -/
theorem C5_branch_use_at_block_exit : ∀ (f : Func) (block inst : ℕ)
    (reused : Option ℕ) (i : ℕ) (op : Operand),
    op.kind = OperandKind.Use → f.is_branch inst = true →
    f.block_exit block = ProgPoint.after inst →
    operandEffectivePos f block inst reused i op = f.block_exit block := by
  intro f block inst reused i op hk hb he
  cases op with
  | mk v c k p =>
    simp only [Operand.kind] at hk
    subst hk
    cases p
    · simp [operandEffectivePos, hb]
    · simp [operandEffectivePos, he]

/-- C5 witness: a `Late` use and an `Early` use of a concrete branch. -/
theorem C5_witness :
    operandEffectivePos exBranchF 0 0 none 0
        ⟨⟨0, RegClass.Int⟩, OperandConstraint.Any, OperandKind.Use, OperandPos.Late⟩ =
      exBranchF.block_exit 0 ∧
    operandEffectivePos exBranchF 0 0 none 0
        ⟨⟨0, RegClass.Int⟩, OperandConstraint.Any, OperandKind.Use, OperandPos.Early⟩ =
      exBranchF.block_exit 0 :=
  ⟨C5_branch_use_at_block_exit exBranchF 0 0 none 0 _ rfl (by decide) (by decide),
   C5_branch_use_at_block_exit exBranchF 0 0 none 0 _ rfl (by decide) (by decide)⟩

/-- C8 counterexample: at loop depth 9 with constraint `Any` and
`is_def = false`, the f32 additions round (262144992 in the code versus
262145000 by the exact formula). -/
theorem C8_counterexample :
    ¬ (spill_weight_from_constraint OperandConstraint.Any 9 false =
        1000 * 4 ^ min 10 9 + (if false then 2000 else 0) + 1000) := by
  decide

/-- C8 (amended): for `loop_depth ≤ 8` every value is exactly representable
in f32 and the weight equals `hot + def_bonus + constraint_bonus` with
`hot = 1000 * 4 ^ min(loop_depth, 10)`, `def_bonus = 2000` for defs and
`constraint_bonus = 1000/2000/0` by constraint; at depths 9 and 10 the
additions round to nearest-even f32. -/
theorem C8_spill_weight_formula : ∀ (c : OperandConstraint) (ld : ℕ) (d : Bool),
    ld ≤ 8 →
    spill_weight_from_constraint c ld d =
      1000 * 4 ^ min 10 ld + (if d then 2000 else 0) +
        (match c with
          | OperandConstraint.Any => 1000
          | OperandConstraint.Reg => 2000
          | OperandConstraint.FixedReg _ => 2000
          | _ => 0) := by
  intro c ld d h
  cases c with
  | Any => interval_cases ld <;> cases d <;> decide
  | Reg => interval_cases ld <;> cases d <;> decide
  | Stack => interval_cases ld <;> cases d <;> decide
  | FixedReg p =>
    show spill_weight_from_constraint OperandConstraint.Reg ld d =
      1000 * 4 ^ min 10 ld + (if d then 2000 else 0) + 2000
    interval_cases ld <;> cases d <;> decide
  | Reuse i =>
    show spill_weight_from_constraint OperandConstraint.Stack ld d =
      1000 * 4 ^ min 10 ld + (if d then 2000 else 0) + 0
    interval_cases ld <;> cases d <;> decide

/-- C8 witness: concrete instance of the amended statement. -/
theorem C8_witness :
    spill_weight_from_constraint OperandConstraint.Reg 3 true =
      1000 * 4 ^ min 10 3 + (if true then 2000 else 0) + 2000 :=
  C8_spill_weight_formula OperandConstraint.Reg 3 true (by norm_num)

/-- C9: the code returns `(bits >> 15) as u16`, not the top 16 bits
`bits >> 16` promised by its own doc comment: on the weight `1000.0`
(reachable as `spill_weight_from_constraint(Stack, 0, false)`, f32 pattern
`0x447A0000`), `to_bits` yields `0x88F4` whereas the top 16 bits are
`0x447A`. -/
theorem C9_to_bits_shift_mismatch :
    spill_weight_from_constraint OperandConstraint.Stack 0 false = 1000 ∧
    SpillWeight.to_bits (f32bitsOfNat 1000) = 35060 ∧
    f32bitsOfNat 1000 / 2 ^ 16 = 17530 ∧
    SpillWeight.to_bits (f32bitsOfNat 1000) ≠ f32bitsOfNat 1000 / 2 ^ 16 := by
  decide

/-- C10: unpacking a 16-bit packed weight and re-packing it is the
identity on `u16`. -/
theorem C10_from_bits_to_bits_id : ∀ b : ℕ, b < 2 ^ 16 →
    SpillWeight.to_bits (SpillWeight.from_bits b) = b := by
  intro b hb
  unfold SpillWeight.to_bits SpillWeight.from_bits
  rw [Nat.shiftLeft_eq, Nat.shiftRight_eq_div_pow]
  have h1 : b * 2 ^ 15 < 2 ^ 32 := by
    have h2 : b * 2 ^ 15 ≤ 65535 * 2 ^ 15 := Nat.mul_le_mul_right _ (by omega)
    norm_num at h2 ⊢
    omega
  rw [Nat.mod_eq_of_lt h1, Nat.mul_div_cancel _ (by norm_num)]
  exact Nat.mod_eq_of_lt hb

/-- C10 witness. -/
theorem C10_witness :
    (4660 : ℕ) < 2 ^ 16 ∧ SpillWeight.to_bits (SpillWeight.from_bits 4660) = 4660 :=
  ⟨by norm_num, C10_from_bits_to_bits_id 4660 (by norm_num)⟩

/-- C3 counterexample: an input whose entry-block live-in is empty but on
which `compute_liveness` does not return `Ok(())` — instruction 1 is a
malformed move (source kind `Def`), so range construction hits
`assert_eq!(src.kind(), OperandKind::Use)` and panics (modelled `none`)
after the dataflow solver computed an empty entry live-in. -/
theorem C3_counterexample :
    solveFix exBadMoveF 4 = some ([[]], [[]]) ∧
    ([[]] : List (List ℕ)).getD exBadMoveF.entry_block [] = [] ∧
    compute_liveness exBadMoveF 4 = none := by
  refine ⟨by decide, by decide, ?_⟩
  decide

/-- C3 (amended): whenever the worklist solver terminates, EntryLivein is
returned iff the computed live-in of the entry block is non-empty, and
EntryLivein is the only error value `compute_liveness` ever returns; with
an empty entry live-in the function never returns an error (it returns
`Ok(())` unless an internal assertion panics, which is not a returned
value). -/
theorem C3_entry_livein_error : ∀ (f : Func) (fuel : ℕ) (li lo : List (List ℕ)),
    solveFix f fuel = some (li, lo) →
    ((compute_liveness f fuel = some (Except.error RegAllocError.EntryLivein) ↔
        li.getD f.entry_block [] ≠ []) ∧
      (∀ e : RegAllocError, compute_liveness f fuel = some (Except.error e) →
        e = RegAllocError.EntryLivein) ∧
      (li.getD f.entry_block [] = [] →
        ∀ e : RegAllocError, compute_liveness f fuel ≠ some (Except.error e))) := by
  intro f fuel li lo hsolve
  have hred : compute_liveness f fuel =
      if li.getD f.entry_block [] ≠ [] then some (Except.error RegAllocError.EntryLivein)
      else (postBuild f (preBuildSt f li lo)).map Except.ok := by
    unfold compute_liveness
    rw [hsolve]
  rw [hred]
  by_cases hE : li.getD f.entry_block [] = []
  · rw [if_neg (by simp only [ne_eq, hE]; simp)]
    have hok : ∀ e : RegAllocError,
        ¬ ((postBuild f (preBuildSt f li lo)).map Except.ok = some (Except.error e)) := by
      intro e hcontra
      rcases Option.map_eq_some'.mp hcontra with ⟨st', _, habs⟩
      exact Except.noConfusion habs
    refine ⟨⟨fun h => absurd h (hok _), fun h => absurd hE h⟩, fun e h => absurd h (hok e), ?_⟩
    intro _ e
    exact hok e
  · rw [if_pos hE]
    refine ⟨⟨fun _ => hE, fun _ => rfl⟩, fun e h => ?_, fun h => absurd h hE⟩
    have := (Option.some.injEq _ _).mp h
    exact (Except.error.injEq _ _).mp this.symm

theorem stFrame_refl (s : St) : stFrame s s := ⟨rfl, rfl, rfl, rfl⟩

theorem stFrame_trans {a b c : St} (h1 : stFrame a b) (h2 : stFrame b c) :
    stFrame a c :=
  ⟨h2.1.trans h1.1, h2.2.1.trans h1.2.1, h2.2.2.1.trans h1.2.2.1,
   h2.2.2.2.trans h1.2.2.2⟩

theorem ranges_length_of_shape {s s' : St} (h : rangesShape s' = rangesShape s) :
    s'.ranges.length = s.ranges.length := by
  have := congrArg List.length h
  simpa [rangesShape] using this

theorem rangeAt_range_of_shape {s s' : St} (h : rangesShape s' = rangesShape s) :
    ∀ i, (rangeAt s' i).range = (rangeAt s i).range := by
  intro i
  have hl := congrArg (fun l => l[i]?) h
  simp only [rangesShape, List.getElem?_map] at hl
  unfold rangeAt
  rw [List.getD_eq_getElem?_getD, List.getD_eq_getElem?_getD]
  cases h1 : s.ranges[i]? with
  | none =>
    cases h2 : s'.ranges[i]? with
    | none => simp
    | some r => rw [h1, h2] at hl; simp at hl
  | some r =>
    cases h2 : s'.ranges[i]? with
    | none => rw [h1, h2] at hl; simp at hl
    | some r' =>
      rw [h1, h2] at hl
      simp only [Option.map_some'] at hl
      have := (Option.some.injEq _ _).mp hl
      simp [this]

theorem frame_insert_use (ib ld : ℕ → ℕ) (st : St) (i : ℕ) (u : Use) :
    stFrame st (insert_use_into_liverange ib ld st i u) := by
  refine ⟨rfl, rfl, rfl, ?_⟩
  unfold rangesShape insert_use_into_liverange
  simp only
  apply map_modifyIdx
  intro a
  rfl

theorem frame_sortRangeUses (st : St) (idx : ℕ) :
    stFrame st (sortRangeUses st idx) := by
  refine ⟨rfl, rfl, rfl, ?_⟩
  unfold rangesShape sortRangeUses
  simp only
  apply map_modifyIdx
  intro a
  rfl

theorem frame_add_preg (st : St) (r : CodeRange) (p : ℕ) :
    stFrame st (add_liverange_to_preg st r p) := ⟨rfl, rfl, rfl, rfl⟩

theorem frame_flush : ∀ (l : List (ℕ × ℕ)) (st : St),
    stFrame st (flushExtraClobbers st l) := by
  intro l
  induction l with
  | nil => intro st; exact stFrame_refl st
  | cons hd tl ih =>
    intro st
    cases hd with
    | mk c i => exact stFrame_trans (frame_add_preg st _ c) (ih _)

theorem frame_foldl {α : Type} (step : St → α → St)
    (h : ∀ st a, stFrame st (step st a)) : ∀ (l : List α) (st : St),
    stFrame st (l.foldl step st) := by
  intro l
  induction l with
  | nil => intro st; exact stFrame_refl st
  | cons hd tl ih => intro st; exact stFrame_trans (h st hd) (ih _)

theorem frame_injectInsertLoop (f : Func) (idx : ℕ) (vr : VReg) (range : CodeRange) :
    ∀ (sps : List ℕ) (st : St) (ins : Bool),
      stFrame st (injectInsertLoop f st idx vr range sps ins).1 := by
  intro sps
  induction sps with
  | nil => intro st ins; exact stFrame_refl st
  | cons s tl ih =>
    intro st ins
    unfold injectInsertLoop
    by_cases hc : range.containsPoint (ProgPoint.before s) = true
    · rw [if_pos hc]
      exact stFrame_trans (frame_insert_use _ _ _ _ _) (ih _ _)
    · rw [if_neg hc]
      exact stFrame_refl st

theorem frame_injectEntry (f : Func) (vr : VReg) (e : LiveRangeListEntry) :
    ∀ (st : St) (sps : List ℕ) (ins : Bool),
      stFrame st (injectEntry f st vr e sps ins).1 := by
  intro st sps ins
  unfold injectEntry
  simp only
  by_cases hi : (injectInsertLoop f st e.index vr e.range
      (sps.dropWhile (fun s => ProgPoint.before s < e.range.«from»)) ins).2.2 = true
  · rw [if_pos hi]
    exact stFrame_trans (frame_injectInsertLoop f e.index vr e.range _ st ins)
      (frame_sortRangeUses _ _)
  · rw [if_neg hi]
    exact frame_injectInsertLoop f e.index vr e.range _ st ins

theorem frame_injectEntries (f : Func) (vr : VReg) :
    ∀ (entries : List LiveRangeListEntry) (st : St) (sps : List ℕ) (ins : Bool),
      stFrame st (injectEntries f st vr entries sps ins) := by
  intro entries
  induction entries with
  | nil => intro st sps ins; exact stFrame_refl st
  | cons e rest ih =>
    intro st sps ins
    unfold injectEntries
    by_cases hc : (injectEntry f st vr e sps ins).2.1 = []
    · rw [if_pos hc]
      exact frame_injectEntry f vr e st sps ins
    · rw [if_neg hc]
      exact stFrame_trans (frame_injectEntry f vr e st sps ins) (ih _ _ _)

theorem frame_injectVRegStep (f : Func) : ∀ (st : St) (v : VReg),
    stFrame st (injectVRegStep f st v) := by
  intro st v
  unfold injectVRegStep
  by_cases hp : (vregAt st v.vreg).is_pinned = true
  · rw [if_pos hp]; exact stFrame_refl st
  · rw [if_neg hp]; exact frame_injectEntries f _ _ st _ false

theorem frame_injectAll (f : Func) (st : St) : stFrame st (injectAll f st) :=
  frame_foldl (injectVRegStep f) (frame_injectVRegStep f) f.reftype_vregs st

theorem frame_fixupRange (st : St) (idx : ℕ) : stFrame st (fixupRange st idx) := by
  unfold fixupRange
  simp only
  refine stFrame_trans (b := { st with
      ranges := modifyIdx
        (fun r => { r with uses := (fixupUses ⟨none, [], [], st.multi_fixed_reg_fixups, []⟩
          (rangeAt st idx).uses).2 }) idx st.ranges,
      multi_fixed_reg_fixups := (fixupUses ⟨none, [], [], st.multi_fixed_reg_fixups, []⟩
        (rangeAt st idx).uses).1.fixups }) ?_ (frame_flush _ _)
  refine ⟨rfl, rfl, rfl, ?_⟩
  unfold rangesShape
  simp only
  apply map_modifyIdx
  intro a
  rfl

theorem frame_fixupAll (st : St) : stFrame st (fixupAll st) := by
  unfold fixupAll
  refine frame_foldl _ ?_ _ _
  intro st' v
  exact frame_foldl _ (fun st'' (e : LiveRangeListEntry) => frame_fixupRange st'' e.index) _ _

theorem frame_finalSorts (st : St) : stFrame st (finalSorts st) := ⟨rfl, rfl, rfl, rfl⟩

theorem frame_reverseUses {s s' : St} (h : reverseUses s = some s') : stFrame s s' := by
  unfold reverseUses at h
  by_cases hc : (s.ranges.map (fun r => { r with uses := r.uses.reverse })).all
      (fun r => usesSortedOk r.uses) = true
  · rw [if_pos hc] at h
    have hs := (Option.some.injEq _ _).mp h
    subst hs
    refine ⟨rfl, rfl, rfl, ?_⟩
    simp [rangesShape]
  · rw [if_neg hc] at h
    exact absurd h (by simp)

theorem finalize_some {s s' : St} (h : finalizeVRegs s = some s') :
    s'.ranges = s.ranges ∧
    s'.vregs = s.vregs.map
      (fun d => { d with ranges := refreshEntries s.ranges d.ranges.reverse }) ∧
    (s'.vregs.all (fun d => chainOk d.ranges)) = true := by
  unfold finalizeVRegs at h
  by_cases hc : (s.vregs.map
      (fun d => { d with ranges := refreshEntries s.ranges d.ranges.reverse })).all
      (fun d => chainOk d.ranges) = true
  · rw [if_pos hc] at h
    have hs := (Option.some.injEq _ _).mp h
    refine ⟨by rw [← hs], by rw [← hs], ?_⟩
    rw [← hs]
    exact hc
  · rw [if_neg hc] at h
    exact absurd h (by simp)

theorem chainOk_iff : ∀ es, chainOk es = true ↔
    List.Chain' (fun a b => a.range.«to» ≤ b.range.«from») es := by
  intro es
  induction es with
  | nil => simp [chainOk]
  | cons a t ih =>
    cases t with
    | nil => simp [chainOk]
    | cons b t' =>
      rw [List.chain'_cons]
      show (decide (a.range.«to» ≤ b.range.«from») && chainOk (b :: t')) = true ↔ _
      rw [Bool.and_eq_true, decide_eq_true_iff, ih]

theorem finalize_vRanges {s s' : St} (h : finalizeVRegs s = some s') :
    ∀ v, vRanges s' v = refreshEntries s.ranges (vRanges s v).reverse := by
  intro v
  obtain ⟨-, hv, -⟩ := finalize_some h
  unfold vRanges vregAt
  rw [hv]
  by_cases hlen : v < s.vregs.length
  · rw [List.getD_eq_getElem?_getD, List.getD_eq_getElem?_getD, List.getElem?_map]
    rw [List.getElem?_eq_getElem hlen]
    simp
  · rw [List.getD_eq_getElem?_getD, List.getD_eq_getElem?_getD]
    rw [List.getElem?_eq_none (by simpa using hlen),
      List.getElem?_eq_none (by omega)]
    rfl

theorem finalize_chain {s s' : St} (h : finalizeVRegs s = some s') :
    ∀ v, List.Chain' (fun a b => a.range.«to» ≤ b.range.«from») (vRanges s' v) := by
  intro v
  obtain ⟨-, hv, hall⟩ := finalize_some h
  by_cases hlen : v < s'.vregs.length
  · have hmem : s'.vregs.getD v default ∈ s'.vregs := by
      rw [List.getD_eq_getElem?_getD, List.getElem?_eq_getElem hlen]
      exact List.getElem_mem _
    have := List.all_eq_true.mp hall _ hmem
    exact (chainOk_iff _).mp this
  · unfold vRanges vregAt
    rw [List.getD_eq_getElem?_getD, List.getElem?_eq_none (by omega)]
    exact List.chain'_nil

theorem refresh_cache (R : List LiveRange) (es : List LiveRangeListEntry) :
    ∀ e ∈ refreshEntries R es, e.range = (R.getD e.index default).range := by
  intro e he
  rcases List.mem_map.mp he with ⟨e0, -, rfl⟩
  rfl

theorem chain_from_mono : ∀ (l : List LiveRangeListEntry),
    List.Chain' (fun a b => a.range.«to» ≤ b.range.«from») l →
    (∀ e ∈ l, e.range.«from» ≤ e.range.«to») →
    List.Chain' (fun a b => a.range.«from» ≤ b.range.«from») l := by
  intro l
  induction l with
  | nil => intro _ _; exact List.chain'_nil
  | cons a t ih =>
    intro hc hwf
    cases t with
    | nil => exact List.chain'_singleton a
    | cons b t' =>
      rw [List.chain'_cons] at hc ⊢
      refine ⟨?_, ih hc.2 (fun e he => hwf e (List.mem_cons_of_mem a he))⟩
      have h1 : a.range.«from» ≤ a.range.«to» := hwf a (by simp)
      exact le_trans h1 hc.1

theorem countP_insSortedBy (le : α → α → Bool) (p : α → Bool) (a : α) :
    ∀ l : List α, (insSortedBy le a l).countP p = l.countP p + (if p a then 1 else 0) := by
  intro l
  induction l with
  | nil => simp [insSortedBy, List.countP_cons]
  | cons h t ih =>
    unfold insSortedBy
    by_cases hle : le a h = true
    · rw [if_pos hle]
      simp only [List.countP_cons]
      try omega
    · rw [if_neg hle]
      simp only [List.countP_cons, ih]
      try omega

theorem countP_sortBy (le : α → α → Bool) (p : α → Bool) :
    ∀ l : List α, (sortBy le l).countP p = l.countP p := by
  intro l
  induction l with
  | nil => rfl
  | cons h t ih =>
    show (insSortedBy le h (sortBy le t)).countP p = _
    rw [countP_insSortedBy, ih, List.countP_cons]

theorem chain_insSortedBy (key : α → ℕ) (a : α) :
    ∀ l : List α, List.Chain' (fun x y => key x ≤ key y) l →
      List.Chain' (fun x y => key x ≤ key y)
        (insSortedBy (fun x y => leN (key x) (key y)) a l) := by
  intro l
  induction l with
  | nil => intro _; exact List.chain'_singleton a
  | cons h t ih =>
    intro hc
    unfold insSortedBy
    by_cases hle : leN (key a) (key h) = true
    · rw [if_pos hle]
      rw [List.chain'_cons]
      exact ⟨of_decide_eq_true hle, hc⟩
    · rw [if_neg hle]
      have hha : key h ≤ key a := by
        unfold leN at hle
        simp at hle
        omega
      rw [List.chain'_cons']
      constructor
      · intro y hy
        cases t with
        | nil =>
          simp [insSortedBy] at hy
          rw [← hy]
          exact hha
        | cons b t' =>
          unfold insSortedBy at hy
          by_cases hab : leN (key a) (key b) = true
          · rw [if_pos hab] at hy
            simp at hy
            rw [← hy]
            exact hha
          · rw [if_neg hab] at hy
            simp at hy
            rw [← hy]
            exact (List.chain'_cons.mp hc).1
      · exact ih hc.tail

theorem chain_sortBy (key : α → ℕ) : ∀ l : List α,
    List.Chain' (fun x y => key x ≤ key y)
      (sortBy (fun x y => leN (key x) (key y)) l) := by
  intro l
  induction l with
  | nil => exact List.chain'_nil
  | cons h t ih =>
    show List.Chain' _ (insSortedBy _ h (sortBy _ t))
    exact chain_insSortedBy key h _ ih

theorem mem_dropWhile_of_mem (p : α → Bool) : ∀ (l : List α) (x : α),
    x ∈ l → p x = false → x ∈ l.dropWhile p := by
  intro l
  induction l with
  | nil => intro x hx _; simp at hx
  | cons h t ih =>
    intro x hx hpx
    rw [List.dropWhile_cons]
    by_cases hph : p h = true
    · rw [if_pos hph]
      rcases List.mem_cons.mp hx with rfl | hxt
      · rw [hph] at hpx; cases hpx
      · exact ih x hxt hpx
    · rw [if_neg hph]
      exact hx

theorem chain_lt_head {h : ℕ} {t : List ℕ} (hc : List.Chain' (· < ·) (h :: t)) :
    ∀ x ∈ t, h < x :=
  fun x hx => (List.pairwise_cons.mp (List.chain'_iff_pairwise.mp hc)).1 x hx

theorem dropWhile_ge_threshold (thr : ℕ) : ∀ (sps : List ℕ),
    List.Chain' (· < ·) sps →
    ∀ x ∈ sps.dropWhile (fun u => decide (ProgPoint.before u < thr)),
      thr ≤ ProgPoint.before x := by
  intro sps
  induction sps with
  | nil => intro _ x hx; simp at hx
  | cons h t ih =>
    intro hc x hx
    rw [List.dropWhile_cons] at hx
    by_cases hph : decide (ProgPoint.before h < thr) = true
    · rw [if_pos hph] at hx
      exact ih hc.tail x hx
    · rw [if_neg hph] at hx
      have h1 : thr ≤ ProgPoint.before h := by
        simp at hph
        omega
      rcases List.mem_cons.mp hx with rfl | hxt
      · exact h1
      · have hhx : h < x := chain_lt_head hc x hxt
        have h2 : ProgPoint.before h ≤ ProgPoint.before x := by
          unfold ProgPoint.before
          omega
        omega

theorem insert_use_uses (ib ld : ℕ → ℕ) (st : St) (idx : ℕ) (u : Use)
    (hidx : idx < st.ranges.length) :
    ∃ w, (rangeAt (insert_use_into_liverange ib ld st idx u) idx).uses =
      (rangeAt st idx).uses ++ [{ u with weight := w }] := by
  refine ⟨packWeight (spill_weight_from_constraint u.operand.constraint
    (ld (ib (ProgPoint.inst u.pos))) (decide (u.operand.kind ≠ OperandKind.Use))), ?_⟩
  unfold insert_use_into_liverange rangeAt
  simp only
  rw [getD_modifyIdx_self _ _ _ _ hidx]

theorem insert_use_other (ib ld : ℕ → ℕ) (st : St) (idx : ℕ) (u : Use) (j : ℕ)
    (hne : idx ≠ j) :
    rangeAt (insert_use_into_liverange ib ld st idx u) j = rangeAt st j := by
  unfold insert_use_into_liverange rangeAt
  simp only
  rw [getD_modifyIdx_ne _ _ _ _ _ hne]

theorem insert_use_ranges_oob (ib ld : ℕ → ℕ) (st : St) (idx : ℕ) (u : Use)
    (h : st.ranges.length ≤ idx) :
    (insert_use_into_liverange ib ld st idx u).ranges = st.ranges := by
  unfold insert_use_into_liverange
  simp only
  rw [modifyIdx_oob _ _ _ h]

theorem insert_use_count_of_not (ib ld : ℕ → ℕ) (st : St) (idx : ℕ) (u : Use)
    (p : Use → Bool) (hp : ∀ w, p { u with weight := w } = false) :
    ∀ j, ((rangeAt (insert_use_into_liverange ib ld st idx u) j).uses).countP p =
      (rangeAt st j).uses.countP p := by
  intro j
  by_cases hj : idx = j
  · subst hj
    by_cases hlen : idx < st.ranges.length
    · obtain ⟨w, hw⟩ := insert_use_uses ib ld st idx u hlen
      rw [hw, List.countP_append]
      simp [List.countP_cons, hp w]
    · unfold rangeAt
      rw [insert_use_ranges_oob ib ld st idx u (by omega)]
  · rw [insert_use_other ib ld st idx u j hj]

theorem insert_use_count_of_match (ib ld : ℕ → ℕ) (st : St) (idx : ℕ) (u : Use)
    (p : Use → Bool) (hlen : idx < st.ranges.length)
    (hp : ∀ w, p { u with weight := w } = true) :
    ((rangeAt (insert_use_into_liverange ib ld st idx u) idx).uses).countP p =
      (rangeAt st idx).uses.countP p + 1 := by
  obtain ⟨w, hw⟩ := insert_use_uses ib ld st idx u hlen
  rw [hw, List.countP_append]
  simp [List.countP_cons, hp w]

theorem sortRangeUses_other (st : St) (idx j : ℕ) (hne : idx ≠ j) :
    rangeAt (sortRangeUses st idx) j = rangeAt st j := by
  unfold sortRangeUses rangeAt
  simp only
  rw [getD_modifyIdx_ne _ _ _ _ _ hne]

theorem sortRangeUses_uses (st : St) (idx : ℕ) (hlen : idx < st.ranges.length) :
    (rangeAt (sortRangeUses st idx) idx).uses =
      sortBy (fun a b => leN a.pos b.pos) (rangeAt st idx).uses := by
  unfold sortRangeUses rangeAt
  simp only
  rw [getD_modifyIdx_self _ _ _ _ hlen]

theorem sortRangeUses_count (st : St) (idx : ℕ) (p : Use → Bool) :
    ∀ j, ((rangeAt (sortRangeUses st idx) j).uses).countP p =
      (rangeAt st j).uses.countP p := by
  intro j
  by_cases hj : idx = j
  · subst hj
    by_cases hlen : idx < st.ranges.length
    · rw [sortRangeUses_uses st idx hlen, countP_sortBy]
    · unfold sortRangeUses rangeAt
      simp only
      rw [modifyIdx_oob _ _ _ (by omega)]
  · rw [sortRangeUses_other st idx j hj]

theorem sortRangeUses_sorted (st : St) (idx : ℕ) (hlen : idx < st.ranges.length) :
    List.Chain' (fun a b => a.pos ≤ b.pos) (rangeAt (sortRangeUses st idx) idx).uses := by
  rw [sortRangeUses_uses st idx hlen]
  exact chain_sortBy Use.pos _

theorem matchStackUse_new (s x : ℕ) (vr : VReg) (w : ℕ) :
    matchStackUse s { Use.new ⟨vr, OperandConstraint.Stack, OperandKind.Use, OperandPos.Early⟩
        (ProgPoint.before x) SLOT_NONE with weight := w } = decide (x = s) := by
  by_cases hx : x = s
  · subst hx
    simp [matchStackUse, Use.new, ProgPoint.before]
  · have h2 : ¬ (2 * x = 2 * s) := by omega
    simp [matchStackUse, Use.new, ProgPoint.before, hx, h2]

theorem loop_suffix (f : Func) (idx : ℕ) (vr : VReg) (range : CodeRange) :
    ∀ (sps : List ℕ) (st : St) (ins : Bool),
      (injectInsertLoop f st idx vr range sps ins).2.1 <:+ sps := by
  intro sps
  induction sps with
  | nil => intro st ins; exact List.nil_suffix
  | cons x rest ih =>
    intro st ins
    unfold injectInsertLoop
    by_cases hc : range.containsPoint (ProgPoint.before x) = true
    · rw [if_pos hc]
      exact (ih _ _).trans (List.suffix_cons x rest)
    · rw [if_neg hc]

theorem loop_other (f : Func) (idx : ℕ) (vr : VReg) (range : CodeRange) :
    ∀ (sps : List ℕ) (st : St) (ins : Bool) (j : ℕ), idx ≠ j →
      rangeAt (injectInsertLoop f st idx vr range sps ins).1 j = rangeAt st j := by
  intro sps
  induction sps with
  | nil => intro st ins j _; rfl
  | cons x rest ih =>
    intro st ins j hne
    unfold injectInsertLoop
    by_cases hc : range.containsPoint (ProgPoint.before x) = true
    · rw [if_pos hc]
      rw [ih _ _ _ hne]
      exact insert_use_other _ _ _ _ _ _ hne
    · rw [if_neg hc]

theorem loop_count_no (f : Func) (idx : ℕ) (vr : VReg) (range : CodeRange) (s : ℕ) :
    ∀ (sps : List ℕ) (st : St) (ins : Bool),
      (∀ x ∈ sps, range.containsPoint (ProgPoint.before x) = true → x ≠ s) →
      ∀ j, ((rangeAt (injectInsertLoop f st idx vr range sps ins).1 j).uses).countP
          (matchStackUse s) = (rangeAt st j).uses.countP (matchStackUse s) := by
  intro sps
  induction sps with
  | nil => intro st ins _ j; rfl
  | cons x rest ih =>
    intro st ins hx j
    unfold injectInsertLoop
    by_cases hc : range.containsPoint (ProgPoint.before x) = true
    · rw [if_pos hc]
      rw [ih _ _ (fun y hy hcy => hx y (List.mem_cons_of_mem x hy) hcy) j]
      exact insert_use_count_of_not _ _ _ _ _ _
        (fun w => by rw [matchStackUse_new]; simp [hx x (by simp) hc]) j
    · rw [if_neg hc]

theorem loop_count_s (f : Func) (idx : ℕ) (vr : VReg) (range : CodeRange) (s : ℕ) :
    ∀ (sps : List ℕ) (st : St) (ins : Bool),
      List.Chain' (· < ·) sps → s ∈ sps →
      (∀ x ∈ sps, range.«from» ≤ ProgPoint.before x) →
      range.containsPoint (ProgPoint.before s) = true →
      idx < st.ranges.length →
      ((rangeAt (injectInsertLoop f st idx vr range sps ins).1 idx).uses).countP
          (matchStackUse s) = (rangeAt st idx).uses.countP (matchStackUse s) + 1 := by
  intro sps
  induction sps with
  | nil => intro st ins _ hmem; simp at hmem
  | cons x rest ih =>
    intro st ins hchain hmem hge hcont hlen
    by_cases hx : x = s
    · subst hx
      unfold injectInsertLoop
      rw [if_pos hcont]
      have hs_rest : ∀ y ∈ rest, range.containsPoint (ProgPoint.before y) = true → y ≠ x :=
        fun y hy _ => by
          have := chain_lt_head hchain y hy
          omega
      rw [loop_count_no f idx vr range x rest _ true hs_rest idx]
      exact insert_use_count_of_match _ _ _ _ _ _ hlen
        (fun w => by rw [matchStackUse_new]; simp)
    · have hmem' : s ∈ rest := by
        rcases List.mem_cons.mp hmem with h | h
        · exact absurd h.symm hx
        · exact h
      have hxs : x < s := chain_lt_head hchain s hmem'
      have hcx : range.containsPoint (ProgPoint.before x) = true := by
        have h1 := hge x (by simp)
        unfold CodeRange.containsPoint at hcont ⊢
        simp only [Bool.and_eq_true, decide_eq_true_eq] at hcont ⊢
        unfold ProgPoint.before at h1 hcont ⊢
        omega
      unfold injectInsertLoop
      rw [if_pos hcx]
      have hlen' : idx < (insert_use_into_liverange f.insn_block f.approx_loop_depth st idx
          (Use.new ⟨vr, OperandConstraint.Stack, OperandKind.Use, OperandPos.Early⟩
            (ProgPoint.before x) SLOT_NONE)).ranges.length := by
        rw [ranges_length_of_shape (frame_insert_use _ _ _ _ _).2.2.2]
        exact hlen
      rw [ih _ true hchain.tail hmem'
        (fun y hy => hge y (List.mem_cons_of_mem x hy)) hcont hlen']
      rw [insert_use_count_of_not _ _ _ _ _ _
        (fun w => by rw [matchStackUse_new]; simp [hx]) idx]

theorem loop_mem_out (f : Func) (idx : ℕ) (vr : VReg) (range : CodeRange) (s : ℕ) :
    ∀ (sps : List ℕ) (st : St) (ins : Bool), s ∈ sps →
      range.containsPoint (ProgPoint.before s) = false →
      s ∈ (injectInsertLoop f st idx vr range sps ins).2.1 := by
  intro sps
  induction sps with
  | nil => intro st ins hmem; simp at hmem
  | cons x rest ih =>
    intro st ins hmem hcont
    unfold injectInsertLoop
    by_cases hc : range.containsPoint (ProgPoint.before x) = true
    · rw [if_pos hc]
      have hxs : x ≠ s := by
        intro h
        rw [h, hcont] at hc
        cases hc
      have hmem' : s ∈ rest := by
        rcases List.mem_cons.mp hmem with h | h
        · exact absurd h.symm hxs
        · exact h
      exact ih _ _ hmem' hcont
    · rw [if_neg hc]
      exact hmem

theorem loop_flag (f : Func) (idx : ℕ) (vr : VReg) (range : CodeRange) :
    ∀ (sps : List ℕ) (st : St),
      (injectInsertLoop f st idx vr range sps true).2.2 = true := by
  intro sps
  induction sps with
  | nil => intro st; rfl
  | cons x rest ih =>
    intro st
    unfold injectInsertLoop
    by_cases hc : range.containsPoint (ProgPoint.before x) = true
    · rw [if_pos hc]
      exact ih _
    · rw [if_neg hc]

theorem loop_flag_of_consume (f : Func) (idx : ℕ) (vr : VReg) (range : CodeRange) (s : ℕ) :
    ∀ (sps : List ℕ) (st : St) (ins : Bool),
      List.Chain' (· < ·) sps → s ∈ sps →
      (∀ x ∈ sps, range.«from» ≤ ProgPoint.before x) →
      range.containsPoint (ProgPoint.before s) = true →
      (injectInsertLoop f st idx vr range sps ins).2.2 = true := by
  intro sps
  cases sps with
  | nil => intro st ins _ hmem; simp at hmem
  | cons x rest =>
    intro st ins hchain hmem hge hcont
    have hcx : range.containsPoint (ProgPoint.before x) = true := by
      by_cases hx : x = s
      · rw [hx]; exact hcont
      · have hmem' : s ∈ rest := by
          rcases List.mem_cons.mp hmem with h | h
          · exact absurd h.symm hx
          · exact h
        have hxs : x < s := chain_lt_head hchain s hmem'
        have h1 := hge x (by simp)
        unfold CodeRange.containsPoint at hcont ⊢
        simp only [Bool.and_eq_true, decide_eq_true_eq] at hcont ⊢
        unfold ProgPoint.before at h1 hcont ⊢
        omega
    unfold injectInsertLoop
    rw [if_pos hcx]
    exact loop_flag f idx vr range rest _

theorem loop_out_ge (f : Func) (idx : ℕ) (vr : VReg) (range : CodeRange) :
    ∀ (sps : List ℕ) (st : St) (ins : Bool),
      List.Chain' (· < ·) sps →
      (∀ x ∈ sps, range.«from» ≤ ProgPoint.before x) →
      ∀ x ∈ (injectInsertLoop f st idx vr range sps ins).2.1,
        range.«to» ≤ ProgPoint.before x := by
  intro sps
  induction sps with
  | nil => intro st ins _ _ x hx; simp [injectInsertLoop] at hx
  | cons h rest ih =>
    intro st ins hchain hge x hx
    unfold injectInsertLoop at hx
    by_cases hc : range.containsPoint (ProgPoint.before h) = true
    · rw [if_pos hc] at hx
      exact ih _ _ hchain.tail (fun y hy => hge y (List.mem_cons_of_mem h hy)) x hx
    · rw [if_neg hc] at hx
      have h1 := hge h (by simp)
      have hto : range.«to» ≤ ProgPoint.before h := by
        unfold CodeRange.containsPoint at hc
        simp only [Bool.and_eq_true, decide_eq_true_eq] at hc
        omega
      rcases List.mem_cons.mp hx with rfl | hxr
      · exact hto
      · have h2 := chain_lt_head hchain x hxr
        unfold ProgPoint.before at hto ⊢
        omega

theorem chain_le_of_mem : ∀ (e : LiveRangeListEntry) (rest : List LiveRangeListEntry)
    (entry : LiveRangeListEntry),
    List.Chain' (fun a b => a.range.«to» ≤ b.range.«from») (e :: rest) →
    (∀ x ∈ e :: rest, x.range.«from» ≤ x.range.«to») →
    entry ∈ rest → e.range.«to» ≤ entry.range.«from» := by
  intro e rest
  induction rest generalizing e with
  | nil => intro entry _ _ h; simp at h
  | cons b rest' ih =>
    intro entry hch hwf hm
    have h1 : e.range.«to» ≤ b.range.«from» := (List.chain'_cons.mp hch).1
    rcases List.mem_cons.mp hm with rfl | hm'
    · exact h1
    · have h2 := ih b entry (List.chain'_cons.mp hch).2
        (fun x hx => hwf x (List.mem_cons_of_mem e hx)) hm'
      have h3 : b.range.«from» ≤ b.range.«to» := hwf b (by simp)
      omega

theorem loop_ranges_oob (f : Func) (idx : ℕ) (vr : VReg) (range : CodeRange) :
    ∀ (sps : List ℕ) (st : St) (ins : Bool), st.ranges.length ≤ idx →
      (injectInsertLoop f st idx vr range sps ins).1.ranges = st.ranges := by
  intro sps
  induction sps with
  | nil => intro st ins _; rfl
  | cons x rest ih =>
    intro st ins hle
    unfold injectInsertLoop
    by_cases hc : range.containsPoint (ProgPoint.before x) = true
    · rw [if_pos hc]
      have h1 := insert_use_ranges_oob f.insn_block f.approx_loop_depth st idx
        (Use.new ⟨vr, OperandConstraint.Stack, OperandKind.Use, OperandPos.Early⟩
          (ProgPoint.before x) SLOT_NONE) hle
      rw [ih _ _ (by rw [h1]; exact hle), h1]
    · rw [if_neg hc]

theorem sortRangeUses_ranges_oob (st : St) (idx : ℕ) (h : st.ranges.length ≤ idx) :
    (sortRangeUses st idx).ranges = st.ranges := by
  unfold sortRangeUses
  simp only
  rw [modifyIdx_oob _ _ _ h]

theorem entry_suffix (f : Func) (vr : VReg) (e : LiveRangeListEntry)
    (st : St) (sps : List ℕ) (ins : Bool) :
    (injectEntry f st vr e sps ins).2.1 <:+ sps := by
  unfold injectEntry
  simp only
  exact (loop_suffix f e.index vr e.range _ st ins).trans (List.dropWhile_suffix _)

theorem entry_pass (f : Func) (vr : VReg) (s : ℕ) (e : LiveRangeListEntry)
    (sps : List ℕ) (st : St) (hgt : ∀ x ∈ sps, s < x) :
    (injectEntry f st vr e sps true).2.2 = true
    ∧ (∀ j, (rangeAt (injectEntry f st vr e sps true).1 j).uses.countP (matchStackUse s)
        = (rangeAt st j).uses.countP (matchStackUse s))
    ∧ (∀ x ∈ (injectEntry f st vr e sps true).2.1, s < x)
    ∧ (∀ j, List.Chain' (fun a b => a.pos ≤ b.pos) (rangeAt st j).uses →
        List.Chain' (fun a b => a.pos ≤ b.pos)
          (rangeAt (injectEntry f st vr e sps true).1 j).uses) := by
  have hsub : ∀ x ∈ sps.dropWhile (fun u => decide (ProgPoint.before u < e.range.«from»)),
      s < x := fun x hx => hgt x ((List.dropWhile_suffix _).subset hx)
  have hne : ∀ x ∈ sps.dropWhile (fun u => decide (ProgPoint.before u < e.range.«from»)),
      e.range.containsPoint (ProgPoint.before x) = true → x ≠ s :=
    fun x hx _ => by have := hsub x hx; omega
  refine ⟨?_, ?_, ?_, ?_⟩
  · unfold injectEntry
    simp only
    by_cases hflag : (injectInsertLoop f st e.index vr e.range
        (sps.dropWhile (fun u => decide (ProgPoint.before u < e.range.«from»))) true).2.2 = true
    · exact hflag
    · exact absurd (loop_flag f e.index vr e.range _ st) hflag
  · intro j
    unfold injectEntry
    simp only
    rw [loop_flag f e.index vr e.range _ st]
    simp only [if_true]
    rw [sortRangeUses_count _ _ _ j]
    exact loop_count_no f e.index vr e.range s _ st true hne j
  · intro x hx
    exact hgt x ((entry_suffix f vr e st sps true).subset hx)
  · intro j hsorted
    unfold injectEntry
    simp only
    rw [loop_flag f e.index vr e.range _ st]
    simp only [if_true]
    by_cases hj : j = e.index
    · rw [hj] at hsorted ⊢
      by_cases hlen : e.index < (injectInsertLoop f st e.index vr e.range
          (sps.dropWhile (fun u => decide (ProgPoint.before u < e.range.«from»))) true).1.ranges.length
      · exact sortRangeUses_sorted _ _ hlen
      · have hoob : st.ranges.length ≤ e.index := by
          have := ranges_length_of_shape
            (frame_injectInsertLoop f e.index vr e.range
              (sps.dropWhile (fun u => decide (ProgPoint.before u < e.range.«from»))) st true).2.2.2
          omega
        have h1 := loop_ranges_oob f e.index vr e.range
          (sps.dropWhile (fun u => decide (ProgPoint.before u < e.range.«from»))) st true hoob
        have h2 := sortRangeUses_ranges_oob (injectInsertLoop f st e.index vr e.range
          (sps.dropWhile (fun u => decide (ProgPoint.before u < e.range.«from»))) true).1 e.index
          (by rw [h1]; exact hoob)
        unfold rangeAt
        rw [h2, h1]
        exact hsorted
    · rw [sortRangeUses_other _ _ _ (fun h => hj h.symm)]
      rw [loop_other f e.index vr e.range _ st true j (fun h => hj h.symm)]
      exact hsorted

theorem walk_post (f : Func) (vr : VReg) (s : ℕ) (idx : ℕ) :
    ∀ (entries : List LiveRangeListEntry) (sps : List ℕ) (st : St),
      (∀ x ∈ sps, s < x) →
      ((rangeAt (injectEntries f st vr entries sps true) idx).uses.countP (matchStackUse s)
        = (rangeAt st idx).uses.countP (matchStackUse s))
      ∧ (List.Chain' (fun a b => a.pos ≤ b.pos) (rangeAt st idx).uses →
        List.Chain' (fun a b => a.pos ≤ b.pos)
          (rangeAt (injectEntries f st vr entries sps true) idx).uses) := by
  intro entries
  induction entries with
  | nil => intro sps st _; exact ⟨rfl, fun h => h⟩
  | cons e rest ih =>
    intro sps st hgt
    obtain ⟨hflag, hcnt, hout, hsort⟩ := entry_pass f vr s e sps st hgt
    unfold injectEntries
    by_cases hq : (injectEntry f st vr e sps true).2.1 = []
    · rw [if_pos hq]
      exact ⟨hcnt idx, hsort idx⟩
    · rw [if_neg hq, hflag]
      obtain ⟨ih1, ih2⟩ := ih (injectEntry f st vr e sps true).2.1
        (injectEntry f st vr e sps true).1 hout
      exact ⟨ih1.trans (hcnt idx), fun h => ih2 (hsort idx h)⟩

theorem injectEntry_val (f : Func) (st : St) (vr : VReg) (e : LiveRangeListEntry)
    (sps : List ℕ) (ins : Bool) :
    injectEntry f st vr e sps ins =
      ((if (injectInsertLoop f st e.index vr e.range
            (sps.dropWhile (fun u => decide (ProgPoint.before u < e.range.«from»))) ins).2.2 = true
        then sortRangeUses (injectInsertLoop f st e.index vr e.range
            (sps.dropWhile (fun u => decide (ProgPoint.before u < e.range.«from»))) ins).1 e.index
        else (injectInsertLoop f st e.index vr e.range
            (sps.dropWhile (fun u => decide (ProgPoint.before u < e.range.«from»))) ins).1),
       (injectInsertLoop f st e.index vr e.range
          (sps.dropWhile (fun u => decide (ProgPoint.before u < e.range.«from»))) ins).2.1,
       (injectInsertLoop f st e.index vr e.range
          (sps.dropWhile (fun u => decide (ProgPoint.before u < e.range.«from»))) ins).2.2) := rfl

theorem injectEntries_cons (f : Func) (st : St) (vr : VReg) (e : LiveRangeListEntry)
    (rest : List LiveRangeListEntry) (sps : List ℕ) (ins : Bool) :
    injectEntries f st vr (e :: rest) sps ins =
      (if (injectEntry f st vr e sps ins).2.1 = [] then (injectEntry f st vr e sps ins).1
       else injectEntries f (injectEntry f st vr e sps ins).1 vr rest
         (injectEntry f st vr e sps ins).2.1 (injectEntry f st vr e sps ins).2.2) := rfl

theorem walk_main (f : Func) (vr : VReg) (s : ℕ) :
    ∀ (entries : List LiveRangeListEntry) (sps : List ℕ) (st : St) (ins : Bool)
      (entry : LiveRangeListEntry),
      entry ∈ entries →
      List.Chain' (fun a b => a.range.«to» ≤ b.range.«from») entries →
      (∀ e ∈ entries, e.range.«from» ≤ e.range.«to») →
      List.Chain' (· < ·) sps →
      s ∈ sps →
      entry.range.containsPoint (ProgPoint.before s) = true →
      entry.index < st.ranges.length →
      (rangeAt st entry.index).uses.countP (matchStackUse s) = 0 →
      (rangeAt (injectEntries f st vr entries sps ins) entry.index).uses.countP
          (matchStackUse s) = 1
      ∧ List.Chain' (fun a b => a.pos ≤ b.pos)
          (rangeAt (injectEntries f st vr entries sps ins) entry.index).uses := by
  intro entries
  induction entries with
  | nil => intro sps st ins entry hm; simp at hm
  | cons e rest ih =>
    intro sps st ins entry hm hch hwf hsps hsmem hcont hlen hcnt
    have hcont' := hcont
    unfold CodeRange.containsPoint at hcont'
    simp only [Bool.and_eq_true, decide_eq_true_eq] at hcont'
    rcases List.mem_cons.mp hm with heq | hmr
    · -- the head entry contains the safepoint
      subst heq
      have hsub1 : ∀ x ∈ sps.dropWhile
          (fun u => decide (ProgPoint.before u < entry.range.«from»)), x ∈ sps :=
        fun x hx => (List.dropWhile_suffix _).subset hx
      have hch1 : List.Chain' (· < ·) (sps.dropWhile
          (fun u => decide (ProgPoint.before u < entry.range.«from»))) :=
        hsps.sublist (List.dropWhile_suffix _).sublist
      have hsmem1 : s ∈ sps.dropWhile
          (fun u => decide (ProgPoint.before u < entry.range.«from»)) :=
        mem_dropWhile_of_mem _ sps s hsmem (by simp; omega)
      have hge1 := dropWhile_ge_threshold entry.range.«from» sps hsps
      have hflag := loop_flag_of_consume f entry.index vr entry.range s _ st ins
        hch1 hsmem1 hge1 hcont
      have hcount1 := loop_count_s f entry.index vr entry.range s _ st ins
        hch1 hsmem1 hge1 hcont hlen
      have hlen1 : entry.index < (injectInsertLoop f st entry.index vr entry.range
          (sps.dropWhile (fun u => decide (ProgPoint.before u < entry.range.«from»)))
          ins).1.ranges.length := by
        rw [ranges_length_of_shape (frame_injectInsertLoop f entry.index vr entry.range
          _ st ins).2.2.2]
        exact hlen
      have hout : ∀ x ∈ (injectEntry f st vr entry sps ins).2.1, s < x := by
        intro x hx
        rw [injectEntry_val] at hx
        simp only at hx
        have := loop_out_ge f entry.index vr entry.range _ st ins hch1 hge1 x hx
        have h2 := hcont'.2
        unfold ProgPoint.before at this h2
        omega
      have hq1 : (injectEntry f st vr entry sps ins).1 =
          sortRangeUses (injectInsertLoop f st entry.index vr entry.range
            (sps.dropWhile (fun u => decide (ProgPoint.before u < entry.range.«from»)))
            ins).1 entry.index := by
        rw [injectEntry_val]
        simp only
        rw [if_pos hflag]
      have hq2 : (injectEntry f st vr entry sps ins).2.2 = true := by
        rw [injectEntry_val]
        exact hflag
      have hcountq : (rangeAt (injectEntry f st vr entry sps ins).1 entry.index).uses.countP
          (matchStackUse s) = 1 := by
        rw [hq1, sortRangeUses_count, hcount1, hcnt]
      have hsortq : List.Chain' (fun a b => a.pos ≤ b.pos)
          (rangeAt (injectEntry f st vr entry sps ins).1 entry.index).uses := by
        rw [hq1]
        exact sortRangeUses_sorted _ _ hlen1
      rw [injectEntries_cons]
      by_cases hqe : (injectEntry f st vr entry sps ins).2.1 = []
      · rw [if_pos hqe]
        exact ⟨hcountq, hsortq⟩
      · rw [if_neg hqe, hq2]
        obtain ⟨hp1, hp2⟩ := walk_post f vr s entry.index rest
          (injectEntry f st vr entry sps ins).2.1
          (injectEntry f st vr entry sps ins).1 hout
        exact ⟨hp1.trans hcountq, hp2 hsortq⟩
    · -- the safepoint belongs to a later entry
      have hwf_e : e.range.«from» ≤ e.range.«to» := hwf e (by simp)
      have hto_le : e.range.«to» ≤ entry.range.«from» :=
        chain_le_of_mem e rest entry hch hwf hmr
      have hbs : e.range.«to» ≤ ProgPoint.before s := by omega
      have hsmem1 : s ∈ sps.dropWhile
          (fun u => decide (ProgPoint.before u < e.range.«from»)) :=
        mem_dropWhile_of_mem _ sps s hsmem (by simp; omega)
      have hcont_e : e.range.containsPoint (ProgPoint.before s) = false := by
        unfold CodeRange.containsPoint
        simp only [Bool.and_eq_true, Bool.and_eq_false_iff]
        right
        simp
        omega
      have hne_e : ∀ x ∈ sps.dropWhile
          (fun u => decide (ProgPoint.before u < e.range.«from»)),
          e.range.containsPoint (ProgPoint.before x) = true → x ≠ s := by
        intro x _ hcx
        unfold CodeRange.containsPoint at hcx
        simp only [Bool.and_eq_true, decide_eq_true_eq] at hcx
        intro h
        rw [h] at hcx
        omega
      have hsmemq : s ∈ (injectEntry f st vr e sps ins).2.1 := by
        rw [injectEntry_val]
        simp only
        exact loop_mem_out f e.index vr e.range s _ st ins hsmem1 hcont_e
      have hcountq : (rangeAt (injectEntry f st vr e sps ins).1 entry.index).uses.countP
          (matchStackUse s) = 0 := by
        rw [injectEntry_val]
        simp only
        by_cases hflag : (injectInsertLoop f st e.index vr e.range
            (sps.dropWhile (fun u => decide (ProgPoint.before u < e.range.«from»)))
            ins).2.2 = true
        · rw [if_pos hflag, sortRangeUses_count]
          rw [loop_count_no f e.index vr e.range s _ st ins hne_e entry.index]
          exact hcnt
        · rw [if_neg hflag]
          rw [loop_count_no f e.index vr e.range s _ st ins hne_e entry.index]
          exact hcnt
      have hchq : List.Chain' (· < ·) (injectEntry f st vr e sps ins).2.1 :=
        hsps.sublist (entry_suffix f vr e st sps ins).sublist
      have hlenq : entry.index < (injectEntry f st vr e sps ins).1.ranges.length := by
        rw [ranges_length_of_shape (frame_injectEntry f vr e st sps ins).2.2.2]
        exact hlen
      rw [injectEntries_cons]
      rw [if_neg (by intro h; rw [h] at hsmemq; simp at hsmemq)]
      exact ih (injectEntry f st vr e sps ins).2.1 (injectEntry f st vr e sps ins).1
        (injectEntry f st vr e sps ins).2.2 entry hmr hch.tail
        (fun x hx => hwf x (List.mem_cons_of_mem e hx)) hchq hsmemq hcont hlenq hcountq

theorem vRanges_of_frame {s s' : St} (h : stFrame s s') (v : ℕ) :
    vRanges s' v = vRanges s v := by
  unfold vRanges vregAt
  rw [h.1]

theorem entry_other (f : Func) (vr : VReg) (e : LiveRangeListEntry) (st : St)
    (sps : List ℕ) (ins : Bool) (j : ℕ) (hne : e.index ≠ j) :
    rangeAt (injectEntry f st vr e sps ins).1 j = rangeAt st j := by
  rw [injectEntry_val]
  simp only
  by_cases hflag : (injectInsertLoop f st e.index vr e.range
      (sps.dropWhile (fun u => decide (ProgPoint.before u < e.range.«from»))) ins).2.2 = true
  · rw [if_pos hflag, sortRangeUses_other _ _ _ hne,
      loop_other f e.index vr e.range _ st ins j hne]
  · rw [if_neg hflag, loop_other f e.index vr e.range _ st ins j hne]

theorem entries_other (f : Func) (vr : VReg) (j : ℕ) :
    ∀ (entries : List LiveRangeListEntry) (st : St) (sps : List ℕ) (ins : Bool),
      (∀ e ∈ entries, e.index ≠ j) →
      rangeAt (injectEntries f st vr entries sps ins) j = rangeAt st j := by
  intro entries
  induction entries with
  | nil => intro st sps ins _; rfl
  | cons e rest ih =>
    intro st sps ins hne
    rw [injectEntries_cons]
    by_cases hqe : (injectEntry f st vr e sps ins).2.1 = []
    · rw [if_pos hqe]
      exact entry_other f vr e st sps ins j (hne e (by simp))
    · rw [if_neg hqe]
      rw [ih _ _ _ (fun x hx => hne x (List.mem_cons_of_mem e hx))]
      exact entry_other f vr e st sps ins j (hne e (by simp))

theorem step_other (f : Func) (u : VReg) (st : St) (j : ℕ)
    (hd : ∀ e ∈ vRanges st u.vreg, e.index ≠ j) :
    rangeAt (injectVRegStep f st u) j = rangeAt st j := by
  unfold injectVRegStep
  by_cases hp : (vregAt st u.vreg).is_pinned = true
  · rw [if_pos hp]
  · rw [if_neg hp]
    exact entries_other f _ j (vRanges st u.vreg) st st.safepoints false hd

theorem steps_other (f : Func) (j : ℕ) :
    ∀ (l : List VReg) (st : St),
      (∀ u ∈ l, ∀ e ∈ vRanges st u.vreg, e.index ≠ j) →
      stFrame st (l.foldl (injectVRegStep f) st) ∧
      rangeAt (l.foldl (injectVRegStep f) st) j = rangeAt st j := by
  intro l
  induction l with
  | nil => intro st _; exact ⟨stFrame_refl st, rfl⟩
  | cons u rest ih =>
    intro st hd
    rw [List.foldl_cons]
    have hfr1 : stFrame st (injectVRegStep f st u) := frame_injectVRegStep f st u
    have hd' : ∀ w ∈ rest, ∀ e ∈ vRanges (injectVRegStep f st u) w.vreg,
        e.index ≠ j := by
      intro w hw e he
      rw [vRanges_of_frame hfr1] at he
      exact hd w (List.mem_cons_of_mem u hw) e he
    obtain ⟨hfr2, hr2⟩ := ih (injectVRegStep f st u) hd'
    refine ⟨stFrame_trans hfr1 hfr2, ?_⟩
    rw [hr2]
    exact step_other f u st j (hd u (by simp))

theorem count_one_split :
    ∀ (l : List VReg) (v : ℕ), (l.map VReg.vreg).count v = 1 →
      ∃ L1 w L2, l = L1 ++ w :: L2 ∧ w.vreg = v ∧
        (∀ u ∈ L1, u.vreg ≠ v) ∧ (∀ u ∈ L2, u.vreg ≠ v) := by
  intro l
  induction l with
  | nil => intro v h; simp at h
  | cons a rest ih =>
    intro v h
    simp only [List.map_cons, List.count_cons] at h
    by_cases ha : a.vreg = v
    · rw [if_pos (by simp [ha])] at h
      have h0 : (rest.map VReg.vreg).count v = 0 := by omega
      have hnot : v ∉ rest.map VReg.vreg := List.count_eq_zero.mp h0
      refine ⟨[], a, rest, by simp, ha, by simp, ?_⟩
      intro u hu hval
      exact hnot (List.mem_map.mpr ⟨u, hu, hval⟩)
    · rw [if_neg (by simpa using ha)] at h
      obtain ⟨L1, w, L2, hsp, hwv, hL1, hL2⟩ := ih v (by omega)
      refine ⟨a :: L1, w, L2, by rw [hsp]; rfl, hwv, ?_, hL2⟩
      intro u hu
      rcases List.mem_cons.mp hu with h1 | h1
      · rw [h1]; exact ha
      · exact hL1 u h1

/-- C4: safepoint stack-use injection. If vreg `v` occurs exactly once in the
reftype list, is not pinned, its range list is sorted and well-formed, the
safepoint list is strictly increasing, safepoint `s` falls inside range entry
`entry` of `v`, the entry's record holds no stack use at `s` yet, and no other
reftype vreg's range list shares `entry`'s record index, then after the whole
injection pass the record holds exactly one `Use` matching
`(Before(s), vreg_reg[v], Stack, SLOT_NONE)` (counted by `matchStackUse`), and
the record's use list is sorted by position. -/
theorem C4_safepoint_injection (f : Func) (st : St) (v s : ℕ)
    (entry : LiveRangeListEntry)
    (hcount : (f.reftype_vregs.map VReg.vreg).count v = 1)
    (hpin : (vregAt st v).is_pinned = false)
    (hch : List.Chain' (fun a b => a.range.«to» ≤ b.range.«from») (vRanges st v))
    (hwf : ∀ e ∈ vRanges st v, e.range.«from» ≤ e.range.«to»)
    (hsps : List.Chain' (· < ·) st.safepoints)
    (hs : s ∈ st.safepoints)
    (hmem : entry ∈ vRanges st v)
    (hcont : entry.range.containsPoint (ProgPoint.before s) = true)
    (hlen : entry.index < st.ranges.length)
    (hcnt : (rangeAt st entry.index).uses.countP (matchStackUse s) = 0)
    (hdisj : ∀ w ∈ f.reftype_vregs, w.vreg ≠ v →
      ∀ e ∈ vRanges st w.vreg, e.index ≠ entry.index) :
    (rangeAt (injectAll f st) entry.index).uses.countP (matchStackUse s) = 1 ∧
    List.Chain' (fun a b => a.pos ≤ b.pos)
      (rangeAt (injectAll f st) entry.index).uses := by
  obtain ⟨L1, w, L2, hsp, hwv, hL1, hL2⟩ := count_one_split f.reftype_vregs v hcount
  set st1 := L1.foldl (injectVRegStep f) st with hst1
  set st2 := injectVRegStep f st1 w with hst2
  have hfold : injectAll f st = L2.foldl (injectVRegStep f) st2 := by
    unfold injectAll
    rw [hsp, List.foldl_append, List.foldl_cons]
  have hdL1 : ∀ u ∈ L1, ∀ e ∈ vRanges st u.vreg, e.index ≠ entry.index := by
    intro u hu
    exact hdisj u (by rw [hsp]; exact List.mem_append_left _ hu) (hL1 u hu)
  obtain ⟨hfr1, hr1⟩ := steps_other f entry.index L1 st hdL1
  have hpin1 : (vregAt st1 w.vreg).is_pinned = false := by
    rw [hwv]
    unfold vregAt at hpin ⊢
    rw [hfr1.1]
    exact hpin
  have hstep : st2 = injectEntries f st1 (st1.vreg_regs.getD w.vreg default)
      (vRanges st1 w.vreg) st1.safepoints false := by
    rw [hst2]
    unfold injectVRegStep
    rw [if_neg (by rw [hpin1]; simp)]
  have hvr1 : vRanges st1 w.vreg = vRanges st v := by
    rw [hwv]
    exact vRanges_of_frame hfr1 v
  have hsp1 : st1.safepoints = st.safepoints := hfr1.2.2.1
  have hmid : st2 = injectEntries f st1 (st1.vreg_regs.getD w.vreg default)
      (vRanges st v) st.safepoints false := by
    rw [hstep, hvr1, hsp1]
  have hlen1 : entry.index < st1.ranges.length := by
    rw [ranges_length_of_shape hfr1.2.2.2]
    exact hlen
  have hcnt1 : (rangeAt st1 entry.index).uses.countP (matchStackUse s) = 0 := by
    rw [hr1]
    exact hcnt
  obtain ⟨hc2, hs2⟩ := walk_main f (st1.vreg_regs.getD w.vreg default) s
    (vRanges st v) st.safepoints st1 false entry hmem hch hwf hsps hs hcont hlen1 hcnt1
  have hc2' : (rangeAt st2 entry.index).uses.countP (matchStackUse s) = 1 := by
    rw [hmid]
    exact hc2
  have hs2' : List.Chain' (fun a b => a.pos ≤ b.pos)
      (rangeAt st2 entry.index).uses := by
    rw [hmid]
    exact hs2
  have hfr2 : stFrame st st2 := stFrame_trans hfr1 (frame_injectVRegStep f st1 w)
  have hdL2 : ∀ u ∈ L2, ∀ e ∈ vRanges st2 u.vreg, e.index ≠ entry.index := by
    intro u hu e he
    rw [vRanges_of_frame hfr2] at he
    exact hdisj u
      (by rw [hsp]; exact List.mem_append_right _ (List.mem_cons_of_mem w hu))
      (hL2 u hu) e he
  obtain ⟨hfr3, hr3⟩ := steps_other f entry.index L2 st2 hdL2
  rw [hfold, hr3]
  exact ⟨hc2', hs2'⟩

theorem C4_witness :
    (rangeAt (injectAll exF2 exStW) 0).uses.countP (matchStackUse 1) = 1 ∧
    List.Chain' (fun a b => a.pos ≤ b.pos) (rangeAt (injectAll exF2 exStW) 0).uses :=
  C4_safepoint_injection exF2 exStW 0 1 ⟨⟨1, 5⟩, 0⟩ (by decide) (by decide)
    (by rw [show vRanges exStW 0 = [⟨⟨1, 5⟩, 0⟩] from rfl]; simp)
    (by decide)
    (by rw [show exStW.safepoints = [1] from rfl]; simp)
    (by decide) (by decide) (by decide) (by decide) (by decide) (by decide)

/-- C2: after a successful `compute_liveness`, every vreg's range list is
ascending and pairwise non-overlapping (each entry's end at most the next
entry's start; touching allowed), and every cached entry range equals the
range of the authoritative record it indexes.  Ascendance of the starts
additionally uses the well-formedness of the produced interval bounds
(`from ≤ to` for the records the list indexes), which the finalization
assertion does not re-check. -/
theorem C2_finalized_ranges : ∀ (f : Func) (fuel : ℕ) (st : St),
    compute_liveness f fuel = some (Except.ok st) →
    ∀ v : ℕ,
    (∀ e ∈ vRanges st v,
      (rangeAt st e.index).range.«from» ≤ (rangeAt st e.index).range.«to») →
    List.Chain' (fun a b => a.range.«to» ≤ b.range.«from») (vRanges st v) ∧
    List.Chain' (fun a b => a.range.«from» ≤ b.range.«from») (vRanges st v) ∧
    ∀ e ∈ vRanges st v, e.range = (rangeAt st e.index).range := by
  intro f fuel st h v hwf
  cases hsf : solveFix f fuel with
  | none =>
    have hred0 : compute_liveness f fuel = none := by
      unfold compute_liveness
      rw [hsf]
    rw [hred0] at h
    exact absurd h (by simp)
  | some p =>
    obtain ⟨li, lo⟩ := p
    have hred : compute_liveness f fuel =
        if li.getD f.entry_block [] ≠ [] then some (Except.error RegAllocError.EntryLivein)
        else (postBuild f (preBuildSt f li lo)).map Except.ok := by
      unfold compute_liveness
      rw [hsf]
    rw [hred] at h
    by_cases hE : li.getD f.entry_block [] ≠ []
    · rw [if_pos hE] at h
      exact absurd ((Option.some.injEq _ _).mp h) (by simp)
    · rw [if_neg hE] at h
      rcases Option.map_eq_some'.mp h with ⟨st0, hpb, hok⟩
      have hst : st0 = st := (Except.ok.injEq _ _).mp hok
      rw [hst] at hpb
      unfold postBuild at hpb
      split at hpb
      · exact absurd hpb (by simp)
      · rename_i s1 hb
        split at hpb
        · exact absurd hpb (by simp)
        · rename_i s3 hf
          split at hpb
          · exact absurd hpb (by simp)
          · rename_i s4 hr
            have hst4 : finalSorts (fixupAll (injectAll f s4)) = st :=
              (Option.some.injEq _ _).mp hpb
            have hfr : stFrame s4 st := by
              rw [← hst4]
              exact stFrame_trans
                (stFrame_trans (frame_injectAll f s4) (frame_fixupAll _))
                (frame_finalSorts _)
            have hfr3 : stFrame s3 st := stFrame_trans (frame_reverseUses hr) hfr
            have hvr : vRanges st v = vRanges s3 v := by
              unfold vRanges vregAt
              rw [hfr3.1]
            have hra : ∀ i, (rangeAt st i).range = (rangeAt s3 i).range :=
              rangeAt_range_of_shape hfr3.2.2.2
            have hchain := finalize_chain hf v
            have hcache : ∀ e ∈ vRanges s3 v, e.range = (rangeAt s3 e.index).range := by
              intro e he
              rw [finalize_vRanges hf v] at he
              have h1 := refresh_cache _ _ e he
              have h2 := (finalize_some hf).1
              unfold rangeAt
              rw [h2]
              exact h1
            rw [hvr]
            refine ⟨hchain, ?_, ?_⟩
            · apply chain_from_mono _ hchain
              intro e he
              have h3 := hwf e (by rw [hvr]; exact he)
              rw [hra e.index] at h3
              rw [hcache e he]
              exact h3
            · intro e he
              rw [hra e.index]
              exact hcache e he

/-- C2 witness: the single-block def-use program. -/
theorem C2_witness :
    List.Chain' (fun a b => a.range.«to» ≤ b.range.«from»)
      (vRanges (okResult (compute_liveness exF1 4)) 0) ∧
    List.Chain' (fun a b => a.range.«from» ≤ b.range.«from»)
      (vRanges (okResult (compute_liveness exF1 4)) 0) ∧
    ∀ e ∈ vRanges (okResult (compute_liveness exF1 4)) 0,
      e.range = (rangeAt (okResult (compute_liveness exF1 4)) e.index).range :=
  C2_finalized_ranges exF1 4 (okResult (compute_liveness exF1 4)) (by decide) 0
    (by decide)

/-- C3 witness: on the well-formed single-block program the solver
terminates with an empty entry live-in and no error is returned. -/
theorem C3_witness :
    ((compute_liveness exF1 4 = some (Except.error RegAllocError.EntryLivein) ↔
        ([[]] : List (List ℕ)).getD exF1.entry_block [] ≠ []) ∧
      (∀ e : RegAllocError, compute_liveness exF1 4 = some (Except.error e) →
        e = RegAllocError.EntryLivein) ∧
      (([[]] : List (List ℕ)).getD exF1.entry_block [] = [] →
        ∀ e : RegAllocError, compute_liveness exF1 4 ≠ some (Except.error e))) :=
  C3_entry_livein_error exF1 4 [[]] [[]] (by decide)

end RA2
